import Mathlib

/-!
# maskcat: mask canonicalisation and pattern-aligned substitution

A shallow embedding of `pkg/utils/utils.go`.

A Go `string` is a sequence of bytes.  It is modelled as a `List Nat` whose
elements are the byte values; every theorem below is stated for all lists, hence
for all byte strings.  The functions of Go's `strings` package that the program
calls are modelled by their documented behaviour.
-/

namespace Maskcat

/-- A Go string: its bytes, in order. -/
abbrev Str := List Nat

/-- Bytes of an ASCII string literal of the source. -/
def ascii (s : String) : Str := s.toList.map Char.toNat

/-- The byte of an ASCII character. -/
abbrev chr (c : Char) : Nat := c.toNat

/-! ## Go's `strings` package -/

/-- Go `strings.HasPrefix(s, p)`. -/
def HasPrefix : Str → Str → Bool
  | _, [] => true
  | [], _ :: _ => false
  | c :: s, d :: p => c == d && HasPrefix s p

/-- Go `strings.Contains(s, sub)`: `sub` starts at some byte offset of `s`. -/
def Contains : Str → Str → Bool
  | [], sub => HasPrefix [] sub
  | c :: s, sub => HasPrefix (c :: s) sub || Contains s sub

/-- The table of a `strings.Replacer` all of whose old strings are one byte long
(Go's `byteStringReplacer`): the pairs `old byte, new string` in argument order. -/
abbrev Table := List (Nat × Str)

/-- The replacement of byte `b`: the first pair for `b` takes precedence. -/
def Table.find : Table → Nat → Option Str
  | [], _ => none
  | (o, n) :: rest, b => if o = b then some n else Table.find rest b

/-- Go `strings.NewReplacer(args...).Replace(s)` for single-byte old strings: each
byte of `s` that has an entry is replaced by its new string, every other byte is
copied. -/
def Table.Replace (t : Table) : Str → Str
  | [] => []
  | b :: s =>
    (match t.find b with
      | some n => n
      | none => [b]) ++ Table.Replace t s

/-! ## The class alphabet -/

/-- The pairs appended by `for c := lo; c <= hi; c++ { args = append(args, string(c), tok) }`;
`n` is the number of characters `hi - lo + 1`. -/
def rangeArgs (lo n : Nat) (tok : Str) : Table :=
  (List.range' lo n).map (fun c => (c, tok))

/-- The literal `specialChars` of `MakeMask` and `MakePartialMask`. -/
def specialChars : Str :=
  ascii " !\"#$%&\\()*+,-./:;<=>?@[\\]^_`\x7b|\x7d~"

/-- The pairs appended by `for _, c := range specialChars`. -/
def specialArgs : Table := specialChars.map (fun c => (c, ascii "?s"))

/-- The pairs of `for c := 'a'; c <= 'z'; c++`, the bytes 97 to 122. -/
def lowerArgs : Table := rangeArgs 97 26 (ascii "?l")

/-- The pairs of `for c := 'A'; c <= 'Z'; c++`, the bytes 65 to 90. -/
def upperArgs : Table := rangeArgs 65 26 (ascii "?u")

/-- The pairs of `for c := '0'; c <= '9'; c++`, the bytes 48 to 57. -/
def digitArgs : Table := rangeArgs 48 10 (ascii "?d")

/-- Go `MakeMask`: one replacer built from the lower, upper, digit and special
pairs, in that order. -/
def MakeMask (str : Str) : Str :=
  Table.Replace (lowerArgs ++ upperArgs ++ digitArgs ++ specialArgs) str

/-! ## Class membership, as predicates -/

/-- The lower-case letters a-z. -/
def isLower (c : Nat) : Bool := decide (97 ≤ c ∧ c ≤ 122)

/-- The upper-case letters A-Z. -/
def isUpper (c : Nat) : Bool := decide (65 ≤ c ∧ c ≤ 90)

/-- The digits 0-9. -/
def isDigit (c : Nat) : Bool := decide (48 ≤ c ∧ c ≤ 57)

/-- Membership in the special set of the source. -/
def isSpecial (c : Nat) : Bool := decide (c ∈ specialChars)

/-- The mask unit of one character: its class token, or the character itself. -/
def maskUnit (c : Nat) : Str :=
  if isLower c then ascii "?l"
  else if isUpper c then ascii "?u"
  else if isDigit c then ascii "?d"
  else if isSpecial c then ascii "?s"
  else [c]

/-! ## UTF-8, as Go decodes and encodes it -/

/-- Go `utf8.RuneError`, U+FFFD. -/
def runeError : Nat := 65533

/-- Go's `first` table for a lead byte `≥ 0x80`: the size of the sequence and the
accepted range of the second byte; `none` for an invalid lead byte. -/
def leadInfo (s0 : Nat) : Option (Nat × Nat × Nat) :=
  if 194 ≤ s0 ∧ s0 ≤ 223 then some (2, 128, 191)
  else if s0 = 224 then some (3, 160, 191)
  else if 225 ≤ s0 ∧ s0 ≤ 236 then some (3, 128, 191)
  else if s0 = 237 then some (3, 128, 159)
  else if 238 ≤ s0 ∧ s0 ≤ 239 then some (3, 128, 191)
  else if s0 = 240 then some (4, 144, 191)
  else if 241 ≤ s0 ∧ s0 ≤ 243 then some (4, 128, 191)
  else if s0 = 244 then some (4, 128, 143)
  else none

/-- Go `utf8.DecodeRuneInString`: the first rune of `s` and its width in bytes;
an invalid or truncated sequence decodes to `runeError` of width 1. -/
def decodeRune (s : Str) : Nat × Nat :=
  match s with
  | [] => (runeError, 0)
  | s0 :: rest =>
    if s0 < 128 then (s0, 1) else
    match leadInfo s0 with
    | none => (runeError, 1)
    | some (sz, lo, hi) =>
      if s.length < sz then (runeError, 1) else
      if rest.getD 0 0 < lo ∨ hi < rest.getD 0 0 then (runeError, 1) else
      if sz ≤ 2 then (s0 % 32 * 64 + rest.getD 0 0 % 64, 2) else
      if rest.getD 1 0 < 128 ∨ 191 < rest.getD 1 0 then (runeError, 1) else
      if sz ≤ 3 then (s0 % 16 * 4096 + rest.getD 0 0 % 64 * 64 + rest.getD 1 0 % 64, 3) else
      if rest.getD 2 0 < 128 ∨ 191 < rest.getD 2 0 then (runeError, 1) else
      (s0 % 8 * 262144 + rest.getD 0 0 % 64 * 4096 + rest.getD 1 0 % 64 * 64
        + rest.getD 2 0 % 64, 4)

/-- Width of the first rune of a non-empty string, at least one byte. -/
def runeWidth (s : Str) : Nat := max 1 (decodeRune s).2

/-- The runes of `s`, decoded one after the other; the fuel is the length of `s`. -/
def runesAux : Nat → Str → List Nat
  | 0, _ => []
  | _ + 1, [] => []
  | fuel + 1, c :: s =>
    (decodeRune (c :: s)).1 :: runesAux fuel ((c :: s).drop (runeWidth (c :: s)))

/-- Go `[]rune(s)`. -/
def runes (s : Str) : List Nat := runesAux s.length s

/-- The byte offsets of the runes of `s`, the first at offset `i`. -/
def rangeAux : Nat → Nat → Str → List Nat
  | 0, _, _ => []
  | _ + 1, _, [] => []
  | fuel + 1, i, c :: s =>
    i :: rangeAux fuel (i + runeWidth (c :: s)) ((c :: s).drop (runeWidth (c :: s)))

/-- The indices `i` of `for i := range s`: the byte offset at which each rune
of `s` starts. -/
def rangeIndices (s : Str) : List Nat := rangeAux s.length 0 s

/-- Go's UTF-8 encoding of one rune; surrogates and values above U+10FFFF encode
as `runeError`. -/
def encodeRune (r : Nat) : Str :=
  if r < 128 then [r]
  else if r < 2048 then [192 + r / 64, 128 + r % 64]
  else if (55296 ≤ r ∧ r ≤ 57343) ∨ 1114111 < r then [239, 191, 189]
  else if r < 65536 then [224 + r / 4096, 128 + r / 64 % 64, 128 + r % 64]
  else [240 + r / 262144, 128 + r / 4096 % 64, 128 + r / 64 % 64, 128 + r % 64]

/-- Go `string(rs)` for a rune slice. -/
def runesToString (rs : List Nat) : Str := (rs.map encodeRune).flatten

/-! ## `strings.Replace`, `strings.ReplaceAll`, `strings.Count` -/

/-- The scan of `strings.Replace(s, old, new, -1)` for a non-empty `old`: the
leftmost occurrence of `old` in what remains is replaced and the scan resumes
right after it.  `skip` counts the bytes of a replaced occurrence still to be
passed over. -/
def replaceScan (old new : Str) : Nat → Str → Str
  | _, [] => []
  | skip + 1, _ :: s => replaceScan old new skip s
  | 0, c :: s =>
    if HasPrefix (c :: s) old then new ++ replaceScan old new (old.length - 1) s
    else c :: replaceScan old new 0 s

/-- The runes of `s`, each as its bytes. -/
def runeChunksAux : Nat → Str → List Str
  | 0, _ => []
  | _ + 1, [] => []
  | fuel + 1, c :: s =>
    (c :: s).take (runeWidth (c :: s)) :: runeChunksAux fuel ((c :: s).drop (runeWidth (c :: s)))

/-- Go `strings.Replace(s, old, new, -1)`, which is `strings.ReplaceAll`: `s`
itself when `old == new`; for an empty `old`, `new` before every rune and at
the end; otherwise every non-overlapping occurrence of `old`, located left to
right, replaced by `new`. -/
def Replace (s old new : Str) : Str :=
  if old = new then s
  else if old = [] then
    new ++ ((runeChunksAux s.length s).map (fun r => r ++ new)).flatten
  else replaceScan old new 0 s

/-- Go `strings.ReplaceAll(s, old, new)`. -/
def ReplaceAll (s old new : Str) : Str := Replace s old new

/-- The scan of `strings.Count` for a non-empty `sub`; `skip` as in `replaceScan`. -/
def countScan (sub : Str) : Nat → Str → Nat
  | _, [] => 0
  | skip + 1, _ :: s => countScan sub skip s
  | 0, c :: s =>
    if HasPrefix (c :: s) sub then 1 + countScan sub (sub.length - 1) s
    else countScan sub 0 s

/-- Go `strings.Count(s, sub)`: the number of non-overlapping occurrences of
`sub` in `s`, and the number of runes plus one for an empty `sub`. -/
def Count (s sub : Str) : Nat :=
  if sub = [] then (runes s).length + 1 else countScan sub 0 s

/-! ## The functions of `utils.go` -/

/-- Go `MakePartialMask`: one replacer per requested class, applied in the
order lower, upper, digit; the special class is applied only when none of the
other three is requested, and the result is the empty string when `s` is
requested together with one of them. -/
def MakePartialMask (str chars : Str) : Str :=
  let str := if Contains chars (ascii "l") then Table.Replace lowerArgs str else str
  let str := if Contains chars (ascii "u") then Table.Replace upperArgs str else str
  let str := if Contains chars (ascii "d") then Table.Replace digitArgs str else str
  if Contains chars (ascii "s") then
    if Contains chars (ascii "u") || Contains chars (ascii "l") || Contains chars (ascii "d") then
      []
    else Table.Replace specialArgs str
  else str

/-- How a run of `ChunkString` can fail to return. -/
inductive Fault where
  | panic
  | outOfFuel
  deriving DecidableEq, Repr

/-- Go `s[i:j]` for `0 ≤ i ≤ j ≤ len(s)`. -/
def slice (s : Str) (i j : Nat) : Str := (s.drop i).take (j - i)

/-- The `for i := 0; i < len(s); i += chunkSize` loop of `ChunkString`, entered
at `i` with the chunks collected so far.  A slice expression out of bounds
panics; every iteration uses one unit of fuel. -/
def chunkLoop (s : Str) (chunkSize : Int) : Nat → Int → List Str → Except Fault (List Str)
  | 0, i, chunks => if i < s.length then .error .outOfFuel else .ok chunks
  | fuel + 1, i, chunks =>
    if i < s.length then
      let stop : Int := if i + chunkSize > s.length then s.length else i + chunkSize
      if 0 ≤ i ∧ i ≤ stop ∧ stop ≤ s.length then
        chunkLoop s chunkSize fuel (i + chunkSize) (chunks ++ [slice s i.toNat stop.toNat])
      else .error .panic
    else .ok chunks

/-- Go `ChunkString`; `nil` is the empty list.  Lengths are far below `2^62`, so
`i + chunkSize` is exact in `int`. -/
def ChunkString (fuel : Nat) (s : Str) (chunkSize : Int) : Except Fault (List Str) :=
  if s.length = 0 then .ok []
  else if chunkSize ≥ s.length then .ok [s]
  else chunkLoop s chunkSize fuel 0 []

/-- Go `ReplaceAtIndex`; `none` is the exit of the process through `CheckError`
when `i` is out of range for the bytes of `in`. -/
def ReplaceAtIndex (src : Str) (r : Nat) (i : Int) : Option Str :=
  if i < 0 ∨ i ≥ src.length then none
  else
    let out := runes src
    if 0 ≤ i ∧ i < out.length then some (runesToString (out.set i.toNat r))
    else if 0 ≤ i ∧ i = out.length then some (runesToString (out.set (out.length - 1) r))
    else some (runesToString out)

/-- One iteration of the restoring loop of `ReplaceWord`, at index `i`. -/
def restoreStep (stringword : Str) (acc : Option Str) (i : Nat) : Option Str :=
  match acc with
  | none => none
  | some newword =>
    if i < newword.length then
      if newword.getD i 0 = 63 then ReplaceAtIndex newword (stringword.getD i 0) i
      else some newword
    else some newword

/-- Go `ReplaceWord`; `none` is the exit of the process inside `ReplaceAtIndex`. -/
def ReplaceWord (stringword mask value : Str) : Option Str :=
  let tokenmask := MakeMask value
  if Contains mask tokenmask then
    let newword := Replace mask tokenmask value
    let newword := ReplaceAll newword (ascii "?u") (ascii "?")
    let newword := ReplaceAll newword (ascii "?l") (ascii "?")
    let newword := ReplaceAll newword (ascii "?d") (ascii "?")
    let newword := ReplaceAll newword (ascii "?s") (ascii "?")
    match (rangeIndices stringword).foldl (restoreStep stringword) (some newword) with
    | none => none
    | some newword =>
      if Contains newword value && newword != value then some newword else some []
  else some []

/-- The `charTypes` of `TestComplexity`. -/
def complexityTypes : List Str := [ascii "?u", ascii "?l", ascii "?d", ascii "?s"]

/-- Go `TestComplexity`: the number of class tokens that occur in `str`. -/
def TestComplexity (str : Str) : Int :=
  complexityTypes.foldl (fun complexity charType =>
    if Contains str charType then complexity + 1 else complexity) 0

/-- The `charTypes` of `TestEntropy`: each class token with its `count`. -/
def entropyTypes : List (Str × Int) :=
  [(ascii "?u", 26), (ascii "?l", 26), (ascii "?d", 10), (ascii "?s", 33)]

/-- Go `TestEntropy`: the occurrences of each class token, weighted.  The sum is
at most `33 * len(str)`, far below `2^63`, so it is exact in `int`. -/
def TestEntropy (str : Str) : Int :=
  entropyTypes.foldl (fun entropy ct => entropy + (Count str ct.1 : Int) * ct.2) 0

/-- One iteration of the loop of `RemoveDuplicateStr`: the state is the key set
of the map `allKeys` and the slice `list`. -/
def dedupStep (st : List Str × List Str) (item : Str) : List Str × List Str :=
  if item ∈ st.1 then st else (item :: st.1, st.2 ++ [item])

/-- Go `RemoveDuplicateStr`. -/
def RemoveDuplicateStr (strSlice : List Str) : List Str :=
  (strSlice.foldl dedupStep ([], [])).2

/-! ## Specification-side definitions -/

/-- The unit of one character under a class-spec, in a single pass: the token
of its class when the spec requests that class, the character itself otherwise. -/
def partialUnit (spec : Str) (c : Nat) : Str :=
  if isLower c ∧ chr 'l' ∈ spec then ascii "?l"
  else if isUpper c ∧ chr 'u' ∈ spec then ascii "?u"
  else if isDigit c ∧ chr 'd' ∈ spec then ascii "?d"
  else if isSpecial c ∧ chr 's' ∈ spec then ascii "?s"
  else [c]

/-- Partial masking in a single pass over the text. -/
def singlePass (spec t : Str) : Str := (t.map (partialUnit spec)).flatten

/-- The passes of `MakePartialMask` that run when the special class is not
mixed with another one, as one function of the text. -/
def partialPasses (spec : Str) (str : Str) : Str :=
  let str := if Contains spec (ascii "l") then Table.Replace lowerArgs str else str
  let str := if Contains spec (ascii "u") then Table.Replace upperArgs str else str
  let str := if Contains spec (ascii "d") then Table.Replace digitArgs str else str
  if Contains spec (ascii "s") then Table.Replace specialArgs str else str

/-! ## The substitution, as the subject is cut by the search -/

/-- Every byte is below 128. -/
def isASCII (s : Str) : Bool := s.all (fun b => decide (b < 128))

/-- Membership in one of the four classes. -/
def isClass (c : Nat) : Bool := isLower c || isUpper c || isDigit c || isSpecial c

/-- The second byte of the class token of a class character. -/
def classLetter (c : Nat) : Nat :=
  if isLower c then chr 'l' else if isUpper c then chr 'u' else if isDigit c then chr 'd'
  else chr 's'

/-- The subject with the token written over every occurrence of the token's
class pattern: scanning the subject left to right, where the mask of what
remains starts with the mask of the token, the token replaces the next
`len(token)` characters (`skip` counts those still to pass over); every other
character is kept. -/
def substituteAll (v : Str) : Nat → Str → Str
  | _, [] => []
  | skip + 1, _ :: w => substituteAll v skip w
  | 0, c :: w =>
    if HasPrefix (MakeMask (c :: w)) (MakeMask v) then v ++ substituteAll v (v.length - 1) w
    else c :: substituteAll v 0 w

/-- How the substitution cuts the subject: a replaced occurrence, or a kept
character. -/
inductive Piece where
  | token : Piece
  | keep : Nat → Piece

/-- The cut of the subject `w` by the left-to-right search for the class pattern
of `v`. -/
def pieces (v : Str) : Nat → Str → List Piece
  | _, [] => []
  | skip + 1, _ :: w => pieces v skip w
  | 0, c :: w =>
    if HasPrefix (MakeMask (c :: w)) (MakeMask v) then .token :: pieces v (v.length - 1) w
    else .keep c :: pieces v 0 w

/-- The bytes that stand for a kept character once the class letters `xs` have
been collapsed. -/
def collapsedUnit (xs : List Nat) (c : Nat) : Str :=
  if isClass c then (if classLetter c ∈ xs then [63] else [63, classLetter c]) else [c]

/-- The working string of `ReplaceWord` for a cut, once the class letters `xs`
have been collapsed. -/
def render (xs : List Nat) (v : Str) : List Piece → Str
  | [] => []
  | .token :: ps => v ++ render xs v ps
  | .keep c :: ps => collapsedUnit xs c ++ render xs v ps

/-- The restoring loop of `ReplaceWord`, position by position: a `?` of the
working string takes the character of the subject at the same index; what lies
beyond the subject is left as it is. -/
def restoreSpec : Str → Str → Str
  | c :: w, x :: nw => (if x = 63 then c else x) :: restoreSpec w nw
  | [], nw => nw
  | _ :: _, [] => []

/-- The class letters, in the order in which `ReplaceWord` has collapsed them. -/
def allLetters : List Nat := [chr 's', chr 'd', chr 'l', chr 'u']

/-- The weight that `TestEntropy` gains at the seam of `m1 ++ m2`. -/
def seamWeight (m1 m2 : Str) : Int :=
  if m1.getLast? = some (chr '?') then
    (if m2.head? = some (chr 'u') then 26
     else if m2.head? = some (chr 'l') then 26
     else if m2.head? = some (chr 'd') then 10
     else if m2.head? = some (chr 's') then 33
     else 0)
  else 0

/-- The distinct elements of a list, in the order of their first occurrence. -/
def firstOccurrences : List Str → List Str
  | [] => []
  | x :: xs => x :: (firstOccurrences xs).filter (fun y => decide (y ≠ x))

/-- Keeping the elements not yet seen, from left to right. -/
def unseen (seen : List Str) : List Str → List Str
  | [] => []
  | x :: xs => if x ∈ seen then unseen seen xs else x :: unseen (x :: seen) xs

/-- The four collapsing passes of `ReplaceWord`, in their order. -/
def collapseAll (s : Str) : Str :=
  ReplaceAll (ReplaceAll (ReplaceAll (ReplaceAll s (ascii "?u") (ascii "?"))
    (ascii "?l") (ascii "?")) (ascii "?d") (ascii "?")) (ascii "?s") (ascii "?")

/-- The number of class tokens in a string. -/
def tokenCount (s : Str) : Nat :=
  countScan [63, chr 'u'] 0 s + countScan [63, chr 'l'] 0 s
    + countScan [63, chr 'd'] 0 s + countScan [63, chr 's'] 0 s

/-- The number of replaced occurrences in a cut. -/
def tokenPieces : List Piece → Nat
  | [] => 0
  | .token :: ps => tokenPieces ps + 1
  | .keep _ :: ps => tokenPieces ps

/-- The string that a cut stands for: the token at a replaced occurrence, the
character of the subject itself where it is kept. -/
def writeOut (v : Str) : List Piece → Str
  | [] => []
  | .token :: ps => v ++ writeOut v ps
  | .keep c :: ps => c :: writeOut v ps

/-! ## Facts about the replacer tables -/

theorem Table.find_eq_none (t : Table) (b : Nat) (h : ∀ p ∈ t, p.1 ≠ b) :
    t.find b = none := by
  induction t with
  | nil => rfl
  | cons p rest ih =>
    obtain ⟨o, n⟩ := p
    have ho : o ≠ b := h (o, n) (List.mem_cons_self _ _)
    have hr : ∀ q ∈ rest, q.1 ≠ b := fun q hq => h q (List.mem_cons_of_mem _ hq)
    simp [Table.find, ho, ih hr]

theorem Table.Replace_eq_flatten (t : Table) (f : Nat → Str)
    (h : ∀ b, (match t.find b with | some n => n | none => [b]) = f b) (s : Str) :
    t.Replace s = (s.map f).flatten := by
  induction s with
  | nil => rfl
  | cons b s ih => simp only [Table.Replace, h, ih, List.map_cons, List.flatten_cons]

theorem fullTable_keys_lt :
    ∀ p ∈ lowerArgs ++ upperArgs ++ digitArgs ++ specialArgs, p.1 < 127 := by
  decide

theorem specialChars_lt : ∀ c ∈ specialChars, c < 127 := by
  decide

set_option maxRecDepth 100000 in
theorem fullTable_find_small : ∀ b, b < 127 →
    (match (lowerArgs ++ upperArgs ++ digitArgs ++ specialArgs).find b with
      | some n => n
      | none => [b]) = maskUnit b := by
  decide

theorem fullTable_find (b : Nat) :
    (match (lowerArgs ++ upperArgs ++ digitArgs ++ specialArgs).find b with
      | some n => n
      | none => [b]) = maskUnit b := by
  by_cases hb : b < 127
  · exact fullTable_find_small b hb
  · have hnone : (lowerArgs ++ upperArgs ++ digitArgs ++ specialArgs).find b = none := by
      apply Table.find_eq_none
      intro p hp hpb
      have := fullTable_keys_lt p hp
      omega
    have hs : isSpecial b = false := by
      simp only [isSpecial, decide_eq_false_iff_not]
      intro hmem
      have := specialChars_lt b hmem
      omega
    have hl : isLower b = false := by simp [isLower]; omega
    have hu : isUpper b = false := by simp [isUpper]; omega
    have hd : isDigit b = false := by simp [isDigit]; omega
    rw [hnone]
    simp [maskUnit, hs, hl, hu, hd]

/-- C2: `MakeMask t` is the concatenation, over the bytes of `t` in order, of
`?l` for a-z, `?u` for A-Z, `?d` for 0-9, `?s` for a character of the special
set and the character itself otherwise; the mask of `Hello, World1!` is
`?u?l?l?l?l?s?s?u?l?l?l?l?d?s`. -/
theorem MakeMask_eq_flatten_maskUnit :
    (∀ t : Str, MakeMask t = (t.map maskUnit).flatten) ∧
    (∀ c : Nat, maskUnit c =
      if 97 ≤ c ∧ c ≤ 122 then ascii "?l"
      else if 65 ≤ c ∧ c ≤ 90 then ascii "?u"
      else if 48 ≤ c ∧ c ≤ 57 then ascii "?d"
      else if c ∈ specialChars then ascii "?s"
      else [c]) ∧
    MakeMask (ascii "Hello, World1!") = ascii "?u?l?l?l?l?s?s?u?l?l?l?l?d?s" := by
  refine ⟨fun t => Table.Replace_eq_flatten _ _ fullTable_find t, ?_, by decide⟩
  intro c
  simp only [maskUnit, isLower, isUpper, isDigit, isSpecial, decide_eq_true_eq]

/-! ## `ChunkString` -/

theorem slice_length (s : Str) (i j : Nat) (hj : j ≤ s.length) :
    (slice s i j).length = j - i := by
  simp [slice]; omega

/-- The loop of `ChunkString` from byte offset `i`, for a positive chunk size. -/
theorem chunkLoop_ok (s : Str) (c : Nat) (hc : 0 < c) :
    ∀ (fuel i : Nat) (acc : List Str), s.length ≤ fuel + i →
      ∃ r, chunkLoop s c fuel i acc = .ok (acc ++ r) ∧ r.flatten = s.drop i ∧
        r.length = (s.length - i + c - 1) / c ∧
        (∀ x ∈ r.dropLast, x.length = c) ∧
        (∀ x ∈ r.getLast?, 1 ≤ x.length ∧ x.length ≤ c) := by
  intro fuel
  induction fuel with
  | zero =>
    intro i acc h
    refine ⟨[], ?_, ?_, ?_, ?_, ?_⟩
    · have : ¬ ((i : Int) < (s.length : Int)) := by omega
      simp [chunkLoop, this]
    · simp; omega
    · have h1 : s.length - i + c - 1 < c := by omega
      simp [Nat.div_eq_of_lt h1]
    · simp
    · simp
  | succ fuel ih =>
    intro i acc h
    by_cases hi : i < s.length
    · have hi' : (i : Int) < (s.length : Int) := by omega
      obtain ⟨r, hr, hflat, hlen, hinit, hlast⟩ := ih (i + c) (acc ++ [slice s i (min (i + c) s.length)]) (by omega)
      refine ⟨slice s i (min (i + c) s.length) :: r, ?_, ?_, ?_, ?_, ?_⟩
      · rw [chunkLoop]
        simp only [hi', if_true]
        by_cases hover : (i : Int) + (c : Int) > (s.length : Int)
        · have hmin : min (i + c) s.length = s.length := by omega
          simp only [hover, if_true]
          have hg : (0 : Int) ≤ i ∧ (i : Int) ≤ s.length ∧ (s.length : Int) ≤ s.length := by omega
          simp only [hg, and_self, if_true, Int.toNat_ofNat]
          rw [hmin] at hr
          have : ((i : Int) + (c : Int)) = ((i + c : Nat) : Int) := by push_cast; rfl
          rw [this, hr, hmin]
          simp
        · have hmin : min (i + c) s.length = i + c := by omega
          simp only [hover, if_false]
          have hg : (0 : Int) ≤ i ∧ (i : Int) ≤ (i : Int) + c ∧ (i : Int) + c ≤ s.length := by omega
          simp only [hg, and_self, if_true, Int.toNat_ofNat]
          rw [hmin] at hr
          have : ((i : Int) + (c : Int)) = ((i + c : Nat) : Int) := by push_cast; rfl
          rw [this, Int.toNat_ofNat, hr, hmin]
          simp
      · rw [List.flatten_cons, hflat]
        simp only [slice]
        by_cases hover : i + c ≤ s.length
        · have hmin : min (i + c) s.length = i + c := by omega
          rw [hmin, Nat.add_sub_cancel_left, ← List.drop_drop, List.take_append_drop]
        · have hmin : min (i + c) s.length = s.length := by omega
          rw [hmin, List.drop_eq_nil_of_le (by omega : s.length ≤ i + c), List.append_nil]
          apply List.take_of_length_le
          simp
      · rw [List.length_cons, hlen]
        by_cases hover : i + c ≤ s.length
        · have : s.length - i + c - 1 = (s.length - (i + c) + c - 1) + c := by omega
          rw [this, Nat.add_div_right _ hc]
        · have h1 : s.length - (i + c) + c - 1 < c := by omega
          rw [Nat.div_eq_of_lt h1]
          symm
          apply Nat.div_eq_of_lt_le <;> omega
      · intro x hx
        cases r with
        | nil => simp at hx
        | cons y r' =>
          rw [List.dropLast_cons₂] at hx
          rcases List.mem_cons.1 hx with rfl | hx'
          · have hpos : 0 < (s.length - (i + c) + c - 1) / c := by
              rw [← hlen]; simp
            have hlt : i + c < s.length := by
              by_contra hcon
              have h1 : s.length - (i + c) + c - 1 < c := by omega
              rw [Nat.div_eq_of_lt h1] at hpos
              omega
            rw [slice_length _ _ _ (by omega)]
            omega
          · exact hinit x hx'
      · intro x hx
        cases r with
        | nil =>
          simp at hx
          subst hx
          rw [slice_length _ _ _ (by omega)]
          omega
        | cons y r' =>
          rw [List.getLast?_cons_cons] at hx
          exact hlast x hx
    · refine ⟨[], ?_, ?_, ?_, ?_, ?_⟩
      · have : ¬ ((i : Int) < (s.length : Int)) := by omega
        simp [chunkLoop, this]
      · simp; omega
      · have h1 : s.length - i + c - 1 < c := by omega
        simp [Nat.div_eq_of_lt h1]
      · simp
      · simp

/-- C5: for every string `s` and every `chunkSize > 0`, `ChunkString` returns
(given fuel for its at most `len(s)` iterations) and the concatenation of the
returned chunks, in order, is `s`. -/
theorem ChunkString_flatten (s : Str) (chunkSize : Int) (hc : 0 < chunkSize) (fuel : Nat)
    (hfuel : s.length ≤ fuel) :
    ∃ chunks, ChunkString fuel s chunkSize = .ok chunks ∧ chunks.flatten = s := by
  obtain ⟨c, rfl⟩ := Int.eq_ofNat_of_zero_le (le_of_lt hc)
  have hc' : 0 < c := by omega
  unfold ChunkString
  by_cases h0 : s.length = 0
  · refine ⟨[], by simp [h0], ?_⟩
    have : s = [] := List.length_eq_zero.1 h0
    simp [this]
  · by_cases h1 : (c : Int) ≥ (s.length : Int)
    · exact ⟨[s], by simp [h0, h1], by simp⟩
    · obtain ⟨r, hr, hflat, -⟩ := chunkLoop_ok s c hc' fuel 0 [] (by omega)
      refine ⟨r, ?_, by simpa using hflat⟩
      simp only [h0, h1, if_false]
      simpa using hr

/-- C5 at `Hello, World!` with chunk size 5. -/
theorem ChunkString_flatten_witness :
    ∃ chunks, ChunkString 13 (ascii "Hello, World!") 5 = .ok chunks ∧
      chunks.flatten = ascii "Hello, World!" :=
  ChunkString_flatten (ascii "Hello, World!") 5 (by decide) 13 (by decide)

theorem ceil_sandwich (len c : Nat) (hc : 0 < c) (hlen : 0 < len) :
    c * ((len + c - 1) / c - 1) < len ∧ len ≤ c * ((len + c - 1) / c) := by
  have h1 : (len + c - 1) / c * c ≤ len + c - 1 := Nat.div_mul_le_self _ _
  have h2 : len + c - 1 < c * ((len + c - 1) / c + 1) := Nat.lt_mul_div_succ _ hc
  have hq : 0 < (len + c - 1) / c := Nat.div_pos (by omega) hc
  generalize (len + c - 1) / c = q at h1 h2 hq
  rw [Nat.mul_succ] at h2
  rw [Nat.mul_comm] at h1
  have h3 : c * (q - 1) = c * q - c := by
    rw [Nat.mul_sub_one]
  rw [h3]
  have h4 : c ≤ c * q := Nat.le_mul_of_pos_right c hq
  constructor <;> omega

/-- C6: for a non-empty `s` and `chunkSize > 0`, `ChunkString` returns
`ceil(len(s)/chunkSize)` chunks (the number `n` with
`chunkSize * (n - 1) < len(s) ≤ chunkSize * n`), each but the last of length
`chunkSize`, the last of length between 1 and `chunkSize`; it returns the single
chunk `s` when `chunkSize >= len(s)`; and `ChunkString("Hello, World!", 5)` is
`["Hello", ", Wor", "ld!"]`. -/
theorem ChunkString_shape :
    (∀ (s : Str) (c fuel : Nat), s ≠ [] → 0 < c → s.length ≤ fuel →
      ∃ chunks, ChunkString fuel s c = .ok chunks ∧
        chunks.length = (s.length + c - 1) / c ∧
        (c * (chunks.length - 1) < s.length ∧ s.length ≤ c * chunks.length) ∧
        (∀ x ∈ chunks.dropLast, x.length = c) ∧
        (∃ last, chunks.getLast? = some last ∧ 1 ≤ last.length ∧ last.length ≤ c) ∧
        (s.length ≤ c → chunks = [s])) ∧
    ChunkString 13 (ascii "Hello, World!") 5
      = .ok [ascii "Hello", ascii ", Wor", ascii "ld!"] := by
  refine ⟨?_, by rfl⟩
  intro s c fuel hs hc hfuel
  have hlen : 0 < s.length := List.length_pos.2 hs
  unfold ChunkString
  by_cases h1 : (c : Int) ≥ (s.length : Int)
  · have hle : s.length ≤ c := by omega
    have hcnt : ([s] : List Str).length = (s.length + c - 1) / c := by
      symm
      apply Nat.div_eq_of_lt_le <;> simp <;> omega
    refine ⟨[s], by simp [hlen.ne', h1], hcnt, ?_, by simp, ⟨s, by simp, hlen, hle⟩,
      fun _ => rfl⟩
    rw [hcnt]
    exact ceil_sandwich s.length c hc hlen
  · obtain ⟨r, hr, -, hcount, hinit, hlast⟩ := chunkLoop_ok s c hc fuel 0 [] (by omega)
    have hr' : chunkLoop s c fuel 0 [] = .ok r := by simpa using hr
    have hcnt : r.length = (s.length + c - 1) / c := by simpa using hcount
    refine ⟨r, by simp only [hlen.ne', h1, if_false]; exact hr', hcnt, ?_, hinit,
      ?_, fun hle => absurd (by omega : (c : Int) ≥ (s.length : Int)) h1⟩
    · rw [hcnt]
      exact ceil_sandwich s.length c hc hlen
    · cases hl : r.getLast? with
      | none =>
        have hnil : r = [] := List.getLast?_eq_none_iff.1 hl
        have hpos : 0 < (s.length + c - 1) / c := Nat.div_pos (by omega) hc
        rw [← hcnt, hnil] at hpos
        simp at hpos
      | some last => exact ⟨last, rfl, hlast last (by simp [hl])⟩

/-- C6 at `Hello, World!` with chunk size 5. -/
theorem ChunkString_shape_witness :
    ∃ chunks, ChunkString 13 (ascii "Hello, World!") 5 = .ok chunks ∧
      chunks.length = ((ascii "Hello, World!").length + 5 - 1) / 5 ∧
      (5 * (chunks.length - 1) < (ascii "Hello, World!").length ∧
        (ascii "Hello, World!").length ≤ 5 * chunks.length) ∧
      (∀ x ∈ chunks.dropLast, x.length = 5) ∧
      (∃ last, chunks.getLast? = some last ∧ 1 ≤ last.length ∧ last.length ≤ 5) ∧
      ((ascii "Hello, World!").length ≤ 5 → chunks = [ascii "Hello, World!"]) :=
  ChunkString_shape.1 (ascii "Hello, World!") 5 13 (by decide) (by decide) (by decide)

theorem chunkLoop_zero_diverges (s : Str) (hs : s ≠ []) :
    ∀ (fuel : Nat) (acc : List Str), chunkLoop s 0 fuel 0 acc = .error .outOfFuel := by
  have hlen : (0 : Int) < s.length := by
    have := List.length_pos.2 hs
    omega
  intro fuel
  induction fuel with
  | zero => intro acc; simp [chunkLoop, hlen]
  | succ fuel ih =>
    intro acc
    rw [chunkLoop]
    have h1 : ¬ ((0 : Int) + 0 > s.length) := by omega
    simp only [hlen, h1, if_true, if_false]
    simpa using ih _

/-- C7 (the code at the failing inputs): on the non-empty string `a`, a chunk
size of 0 never leaves the loop, whatever the fuel, and a chunk size of -1
panics in the slice expression of the first iteration; only the empty string
gives the empty sequence. -/
theorem ChunkString_nonpositive_size :
    (∀ fuel, ChunkString fuel (ascii "a") 0 = .error .outOfFuel) ∧
    (∀ fuel, ChunkString (fuel + 1) (ascii "a") (-1) = .error .panic) ∧
    (∀ fuel chunkSize, ChunkString fuel [] chunkSize = .ok []) := by
  refine ⟨?_, ?_, ?_⟩
  · intro fuel
    have := chunkLoop_zero_diverges (ascii "a") (by decide) fuel []
    simpa [ChunkString, ascii] using this
  · intro fuel
    simp [ChunkString, ascii, chunkLoop]
  · intro fuel chunkSize
    simp [ChunkString]

/-! ## `MakePartialMask` -/

theorem HasPrefix_singleton (s : Str) (c : Nat) :
    HasPrefix s [c] = true ↔ s.head? = some c := by
  cases s with
  | nil => simp [HasPrefix]
  | cons d s => simp [HasPrefix]

theorem Contains_singleton (s : Str) (c : Nat) : Contains s [c] = true ↔ c ∈ s := by
  induction s with
  | nil => simp [Contains, HasPrefix]
  | cons d s ih =>
    rw [Contains, Bool.or_eq_true, ih, HasPrefix_singleton]
    simp [eq_comm]

theorem Table.Replace_append (t : Table) (a b : Str) :
    t.Replace (a ++ b) = t.Replace a ++ t.Replace b := by
  induction a with
  | nil => rfl
  | cons c a ih => simp [Table.Replace, ih]

theorem lowerArgs_keys : ∀ p ∈ lowerArgs, p.1 < 127 := by decide
theorem upperArgs_keys : ∀ p ∈ upperArgs, p.1 < 127 := by decide
theorem digitArgs_keys : ∀ p ∈ digitArgs, p.1 < 127 := by decide
theorem specialArgs_keys : ∀ p ∈ specialArgs, p.1 < 127 := by decide

theorem Table.find_large (t : Table) (ht : ∀ p ∈ t, p.1 < 127) (b : Nat) (hb : ¬ b < 127) :
    t.find b = none := by
  apply Table.find_eq_none
  intro p hp hpb
  have := ht p hp
  omega

set_option maxRecDepth 100000 in
theorem lowerArgs_small : ∀ b, b < 127 →
    lowerArgs.Replace [b] = if isLower b then ascii "?l" else [b] := by
  decide

set_option maxRecDepth 100000 in
theorem upperArgs_small : ∀ b, b < 127 →
    upperArgs.Replace [b] = if isUpper b then ascii "?u" else [b] := by
  decide

set_option maxRecDepth 100000 in
theorem digitArgs_small : ∀ b, b < 127 →
    digitArgs.Replace [b] = if isDigit b then ascii "?d" else [b] := by
  decide

set_option maxRecDepth 100000 in
theorem specialArgs_small : ∀ b, b < 127 →
    specialArgs.Replace [b] = if isSpecial b then ascii "?s" else [b] := by
  decide

theorem isSpecial_lt {b : Nat} (h : isSpecial b = true) : b < 127 := by
  simp only [isSpecial, decide_eq_true_eq] at h
  exact specialChars_lt b h

theorem lowerArgs_unit (b : Nat) :
    lowerArgs.Replace [b] = if isLower b then ascii "?l" else [b] := by
  by_cases hb : b < 127
  · exact lowerArgs_small b hb
  · have hl : isLower b = false := by simp [isLower]; omega
    simp [Table.Replace, Table.find_large _ lowerArgs_keys b hb, hl]

theorem upperArgs_unit (b : Nat) :
    upperArgs.Replace [b] = if isUpper b then ascii "?u" else [b] := by
  by_cases hb : b < 127
  · exact upperArgs_small b hb
  · have hl : isUpper b = false := by simp [isUpper]; omega
    simp [Table.Replace, Table.find_large _ upperArgs_keys b hb, hl]

theorem digitArgs_unit (b : Nat) :
    digitArgs.Replace [b] = if isDigit b then ascii "?d" else [b] := by
  by_cases hb : b < 127
  · exact digitArgs_small b hb
  · have hl : isDigit b = false := by simp [isDigit]; omega
    simp [Table.Replace, Table.find_large _ digitArgs_keys b hb, hl]

theorem specialArgs_unit (b : Nat) :
    specialArgs.Replace [b] = if isSpecial b then ascii "?s" else [b] := by
  by_cases hb : b < 127
  · exact specialArgs_small b hb
  · have hl : isSpecial b = false := by
      cases h : isSpecial b with
      | false => rfl
      | true => exact absurd (isSpecial_lt h) hb
    simp [Table.Replace, Table.find_large _ specialArgs_keys b hb, hl]

theorem partialPasses_append (spec a b : Str) :
    partialPasses spec (a ++ b) = partialPasses spec a ++ partialPasses spec b := by
  unfold partialPasses
  by_cases hl : Contains spec (ascii "l") <;> by_cases hu : Contains spec (ascii "u") <;>
    by_cases hd : Contains spec (ascii "d") <;> by_cases hs : Contains spec (ascii "s") <;>
    simp [hl, hu, hd, hs, Table.Replace_append]

theorem upperArgs_lowerTok : upperArgs.Replace (ascii "?l") = ascii "?l" := by decide
theorem digitArgs_lowerTok : digitArgs.Replace (ascii "?l") = ascii "?l" := by decide
theorem digitArgs_upperTok : digitArgs.Replace (ascii "?u") = ascii "?u" := by decide

theorem partialPasses_unit (spec : Str) (c : Nat)
    (h : ¬ (chr 's' ∈ spec ∧ (chr 'u' ∈ spec ∨ chr 'l' ∈ spec ∨ chr 'd' ∈ spec))) :
    partialPasses spec [c] = partialUnit spec c := by
  have el : (Contains spec (ascii "l") = true) ↔ chr 'l' ∈ spec := Contains_singleton spec _
  have eu : (Contains spec (ascii "u") = true) ↔ chr 'u' ∈ spec := Contains_singleton spec _
  have ed : (Contains spec (ascii "d") = true) ↔ chr 'd' ∈ spec := Contains_singleton spec _
  have es : (Contains spec (ascii "s") = true) ↔ chr 's' ∈ spec := Contains_singleton spec _
  unfold partialPasses partialUnit
  by_cases hs : chr 's' ∈ spec
  · have hl : chr 'l' ∉ spec := fun x => h ⟨hs, Or.inr (Or.inl x)⟩
    have hu : chr 'u' ∉ spec := fun x => h ⟨hs, Or.inl x⟩
    have hd : chr 'd' ∉ spec := fun x => h ⟨hs, Or.inr (Or.inr x)⟩
    simp only [el, eu, ed, es, hl, hu, hd, hs, if_true, if_false, and_false, and_true,
      specialArgs_unit]
  · by_cases hl : chr 'l' ∈ spec <;> by_cases hu : chr 'u' ∈ spec <;>
      by_cases hd : chr 'd' ∈ spec <;>
      simp only [el, eu, ed, es, hl, hu, hd, hs, if_true, if_false, and_false, and_true,
        lowerArgs_unit, upperArgs_unit, digitArgs_unit] <;>
      by_cases cl : isLower c = true <;> by_cases cu : isUpper c = true <;>
      by_cases cd : isDigit c = true <;>
      simp [cl, cu, cd, upperArgs_lowerTok, digitArgs_lowerTok, digitArgs_upperTok,
        upperArgs_unit, digitArgs_unit]

theorem partialPasses_eq_singlePass (spec t : Str)
    (h : ¬ (chr 's' ∈ spec ∧ (chr 'u' ∈ spec ∨ chr 'l' ∈ spec ∨ chr 'd' ∈ spec))) :
    partialPasses spec t = singlePass spec t := by
  induction t with
  | nil =>
    unfold partialPasses singlePass
    by_cases hl : Contains spec (ascii "l") <;> by_cases hu : Contains spec (ascii "u") <;>
      by_cases hd : Contains spec (ascii "d") <;> by_cases hs : Contains spec (ascii "s") <;>
      simp [hl, hu, hd, hs, Table.Replace]
  | cons c t ih =>
    have : c :: t = [c] ++ t := rfl
    rw [this, partialPasses_append, ih, partialPasses_unit spec c h]
    simp [singlePass]

theorem MakePartialMask_eq_passes (t spec : Str)
    (h : ¬ (chr 's' ∈ spec ∧ (chr 'u' ∈ spec ∨ chr 'l' ∈ spec ∨ chr 'd' ∈ spec))) :
    MakePartialMask t spec = partialPasses spec t := by
  have el : (Contains spec (ascii "l") = true) ↔ chr 'l' ∈ spec := Contains_singleton spec _
  have eu : (Contains spec (ascii "u") = true) ↔ chr 'u' ∈ spec := Contains_singleton spec _
  have ed : (Contains spec (ascii "d") = true) ↔ chr 'd' ∈ spec := Contains_singleton spec _
  have es : (Contains spec (ascii "s") = true) ↔ chr 's' ∈ spec := Contains_singleton spec _
  unfold MakePartialMask partialPasses
  by_cases hs : chr 's' ∈ spec
  · have hl : chr 'l' ∉ spec := fun x => h ⟨hs, Or.inr (Or.inl x)⟩
    have hu : chr 'u' ∉ spec := fun x => h ⟨hs, Or.inl x⟩
    have hd : chr 'd' ∉ spec := fun x => h ⟨hs, Or.inr (Or.inr x)⟩
    simp [el, eu, ed, es, hl, hu, hd, hs]
  · simp [es, hs]

theorem MakePartialMask_singlePass_aux (t spec : Str)
    (h : ¬ (chr 's' ∈ spec ∧ (chr 'u' ∈ spec ∨ chr 'l' ∈ spec ∨ chr 'd' ∈ spec))) :
    MakePartialMask t spec = singlePass spec t := by
  rw [MakePartialMask_eq_passes t spec h, partialPasses_eq_singlePass spec t h]

/-- C8: for every text and every class-spec that contains `s` together with at
least one of `u`, `l`, `d`, `MakePartialMask` returns the empty string. -/
theorem MakePartialMask_mixed_special (t spec : Str) (hs : chr 's' ∈ spec)
    (h : chr 'u' ∈ spec ∨ chr 'l' ∈ spec ∨ chr 'd' ∈ spec) :
    MakePartialMask t spec = [] := by
  have es : Contains spec (ascii "s") = true := (Contains_singleton spec _).2 hs
  have e3 : (Contains spec (ascii "u") || Contains spec (ascii "l")
      || Contains spec (ascii "d")) = true := by
    rcases h with h | h | h
    · simp [show Contains spec (ascii "u") = true from (Contains_singleton spec _).2 h]
    · simp [show Contains spec (ascii "l") = true from (Contains_singleton spec _).2 h]
    · simp [show Contains spec (ascii "d") = true from (Contains_singleton spec _).2 h]
  unfold MakePartialMask
  simp only [es, e3, if_true]

/-- C8 at `Hello, World1!` with the class-spec `us`. -/
theorem MakePartialMask_mixed_special_witness :
    MakePartialMask (ascii "Hello, World1!") (ascii "us") = [] :=
  MakePartialMask_mixed_special (ascii "Hello, World1!") (ascii "us") (by decide) (by decide)

/-- C9 as stated fails: with the class-spec `uds` the text `Hello, World1!` is
not masked to `?uello?s?s?uorld?d?s`; the result is the empty string. -/
theorem MakePartialMask_uds_counterexample :
    MakePartialMask (ascii "Hello, World1!") (ascii "uds") = [] ∧
    MakePartialMask (ascii "Hello, World1!") (ascii "uds") ≠ ascii "?uello?s?s?uorld?d?s" := by
  decide

/-- C9, amended: for every text `t`, `MakePartialMask t "uds"` is the empty
string, since the spec combines `s` with `u` and `d`; with the classes `u` and
`d` alone every upper-case letter and digit is replaced by its class token and
every other character is unchanged, e.g. `Hello, World1!` gives
`?uello, ?uorld?d!`. -/
theorem MakePartialMask_uds_empty :
    (∀ t : Str, MakePartialMask t (ascii "uds") = []) ∧
    (∀ t : Str, MakePartialMask t (ascii "ud") =
      (t.map (fun c => if isUpper c then ascii "?u"
        else if isDigit c then ascii "?d" else [c])).flatten) ∧
    MakePartialMask (ascii "Hello, World1!") (ascii "ud") = ascii "?uello, ?uorld?d!" := by
  refine ⟨?_, ?_, by decide⟩
  · intro t
    have es : Contains (ascii "uds") (ascii "s") = true := by decide
    have eu : Contains (ascii "uds") (ascii "u") = true := by decide
    unfold MakePartialMask
    simp only [es, eu, Bool.true_or, if_true]
  · intro t
    rw [MakePartialMask_singlePass_aux t (ascii "ud") (by decide), singlePass]
    congr 1
    apply List.map_congr_left
    intro c _
    have hl : chr 'l' ∉ ascii "ud" := by decide
    have hu : chr 'u' ∈ ascii "ud" := by decide
    have hd : chr 'd' ∈ ascii "ud" := by decide
    have hs : chr 's' ∉ ascii "ud" := by decide
    simp only [partialUnit, hl, hu, hd, hs, and_true, and_false, if_false]

/-- C10: for every text and every class-spec that does not combine `s` with any
of `u`, `l`, `d`, the successive passes of `MakePartialMask` give the result of
the single pass that replaces each character of a requested class by the token
of that class and copies every other character; a spec with none of `u`, `l`,
`d`, `s` returns the text unchanged, and the spec `s` replaces exactly the
special characters. -/
theorem MakePartialMask_eq_singlePass :
    (∀ t spec : Str,
      ¬ (chr 's' ∈ spec ∧ (chr 'u' ∈ spec ∨ chr 'l' ∈ spec ∨ chr 'd' ∈ spec)) →
      MakePartialMask t spec = singlePass spec t) ∧
    (∀ t spec : Str, chr 'u' ∉ spec → chr 'l' ∉ spec → chr 'd' ∉ spec → chr 's' ∉ spec →
      MakePartialMask t spec = t) ∧
    (∀ t : Str, MakePartialMask t (ascii "s") =
      (t.map (fun c => if isSpecial c then ascii "?s" else [c])).flatten) := by
  refine ⟨MakePartialMask_singlePass_aux, ?_, ?_⟩
  · intro t spec hu hl hd hs
    rw [MakePartialMask_singlePass_aux t spec (fun h => hs h.1), singlePass]
    have : ∀ c, partialUnit spec c = [c] := by
      intro c
      simp only [partialUnit, hl, hu, hd, hs, and_false, if_false]
    rw [funext this]
    clear this
    induction t with
    | nil => rfl
    | cons c t ih => simpa using ih
  · intro t
    rw [MakePartialMask_singlePass_aux t (ascii "s") (by decide), singlePass]
    congr 1
    apply List.map_congr_left
    intro c _
    have hl : chr 'l' ∉ ascii "s" := by decide
    have hu : chr 'u' ∉ ascii "s" := by decide
    have hd : chr 'd' ∉ ascii "s" := by decide
    have hs : chr 's' ∈ ascii "s" := by decide
    simp only [partialUnit, hl, hu, hd, hs, and_true, and_false, if_false]

/-- C10 at `Hello, World1!` with the class-spec `lud`. -/
theorem MakePartialMask_eq_singlePass_witness :
    MakePartialMask (ascii "Hello, World1!") (ascii "lud")
      = singlePass (ascii "lud") (ascii "Hello, World1!") ∧
    singlePass (ascii "lud") (ascii "Hello, World1!") = ascii "?u?l?l?l?l, ?u?l?l?l?l?d!" :=
  ⟨MakePartialMask_eq_singlePass.1 (ascii "Hello, World1!") (ascii "lud") (by decide),
    by decide⟩

/-! ## `ReplaceWord` -/

theorem isASCII_iff (s : Str) : isASCII s = true ↔ ∀ b ∈ s, b < 128 := by
  simp [isASCII, List.all_eq_true]

theorem MakeMask_flatten (t : Str) : MakeMask t = (t.map maskUnit).flatten :=
  Table.Replace_eq_flatten _ _ fullTable_find t

theorem MakeMask_nil : MakeMask [] = [] := rfl

theorem MakeMask_cons (c : Nat) (w : Str) : MakeMask (c :: w) = maskUnit c ++ MakeMask w := by
  simp [MakeMask_flatten]

theorem MakeMask_append (a b : Str) : MakeMask (a ++ b) = MakeMask a ++ MakeMask b := by
  simp [MakeMask_flatten]

theorem maskUnit_eq (c : Nat) :
    maskUnit c = if isClass c then [63, classLetter c] else [c] := by
  unfold maskUnit isClass classLetter
  by_cases h1 : isLower c = true
  · simp [h1]; decide
  · by_cases h2 : isUpper c = true
    · simp [h1, h2]; decide
    · by_cases h3 : isDigit c = true
      · simp [h1, h2, h3]; decide
      · by_cases h4 : isSpecial c = true
        · simp [h1, h2, h3, h4]; decide
        · simp [h1, h2, h3, h4]

theorem isClass_63 : isClass 63 = true := by decide

theorem isClass_classLetter (c : Nat) : isClass (classLetter c) = true := by
  unfold classLetter
  split_ifs <;> decide

theorem classLetter_ne_63 (c : Nat) : classLetter c ≠ 63 := by
  unfold classLetter
  split_ifs <;> decide

theorem not_isClass_ne_63 {c : Nat} (h : isClass c = false) : c ≠ 63 := by
  rintro rfl
  simp [isClass_63] at h

theorem not_isClass_ne_classLetter {c : Nat} (h : isClass c = false) (d : Nat) :
    c ≠ classLetter d := by
  rintro rfl
  simp [isClass_classLetter] at h

theorem maskUnit_ne_nil (c : Nat) : maskUnit c ≠ [] := by
  rw [maskUnit_eq]; split_ifs <;> simp

theorem MakeMask_eq_nil {w : Str} (h : MakeMask w = []) : w = [] := by
  cases w with
  | nil => rfl
  | cons c w =>
    rw [MakeMask_cons] at h
    exact absurd (List.append_eq_nil.1 h).1 (maskUnit_ne_nil c)

/-! ### `HasPrefix` -/

theorem HasPrefix_nil (s : Str) : HasPrefix s [] = true := by
  cases s <;> rfl

theorem HasPrefix_cons_cons (c d : Nat) (s p : Str) :
    HasPrefix (c :: s) (d :: p) = (c == d && HasPrefix s p) := rfl

theorem HasPrefix_append (p t : Str) : HasPrefix (p ++ t) p = true := by
  induction p with
  | nil => exact HasPrefix_nil _
  | cons c p ih => simp [HasPrefix, ih]

theorem HasPrefix_iff (s p : Str) : HasPrefix s p = true ↔ ∃ t, s = p ++ t := by
  induction p generalizing s with
  | nil => simp [HasPrefix_nil]
  | cons d p ih =>
    cases s with
    | nil => simp [HasPrefix]
    | cons c s =>
      rw [HasPrefix_cons_cons, Bool.and_eq_true, ih]
      constructor
      · rintro ⟨hcd, t, rfl⟩
        exact ⟨t, by simp at hcd; simp [hcd]⟩
      · rintro ⟨t, ht⟩
        simp at ht
        exact ⟨by simp [ht.1], t, ht.2⟩

theorem HasPrefix_head_ne {c d : Nat} (h : c ≠ d) (s p : Str) :
    HasPrefix (c :: s) (d :: p) = false := by
  simp [HasPrefix, h]

/-- The class tokens form a prefix code: where the mask of `v` starts the mask of
`w`, the first `len(v)` characters of `w` have the mask of `v`. -/
theorem HasPrefix_MakeMask_split (v : Str) :
    ∀ w : Str, HasPrefix (MakeMask w) (MakeMask v) = true →
      ∃ a w', w = a ++ w' ∧ a.length = v.length ∧ MakeMask a = MakeMask v := by
  induction v with
  | nil => intro w _; exact ⟨[], w, rfl, rfl, rfl⟩
  | cons d v ih =>
    intro w h
    cases w with
    | nil =>
      rw [MakeMask_nil, MakeMask_cons] at h
      cases hu : maskUnit d with
      | nil => exact absurd hu (maskUnit_ne_nil d)
      | cons x xs => rw [hu] at h; simp [HasPrefix] at h
    | cons c w =>
      rw [MakeMask_cons, MakeMask_cons] at h
      have key : maskUnit c = maskUnit d ∧ HasPrefix (MakeMask w) (MakeMask v) = true := by
        rw [maskUnit_eq, maskUnit_eq] at h ⊢
        cases hc : isClass c <;> cases hd : isClass d <;>
          simp only [hc, hd, if_true, Bool.false_eq_true, if_false, List.cons_append,
            List.nil_append, HasPrefix_cons_cons, Bool.and_eq_true, beq_iff_eq] at h ⊢
        · exact ⟨by simp [h.1], h.2⟩
        · exact absurd h.1 (not_isClass_ne_63 hc)
        · exact absurd h.1.symm (not_isClass_ne_63 hd)
        · exact ⟨by rw [h.2.1], h.2.2⟩
      obtain ⟨a, w', rfl, hlen, hmask⟩ := ih w key.2
      exact ⟨c :: a, w', rfl, by simp [hlen], by rw [MakeMask_cons, MakeMask_cons, key.1, hmask]⟩

/-! ### The scan of `strings.Replace` -/

theorem replaceScan_skip (old new : Str) (k : Nat) (s : Str) :
    replaceScan old new k s = replaceScan old new 0 (s.drop k) := by
  induction k generalizing s with
  | zero => rfl
  | succ k ih =>
    cases s with
    | nil => rfl
    | cons c s => rw [replaceScan, ih, List.drop_succ_cons]

theorem replaceScan_match (old new t : Str) (h : old ≠ []) :
    replaceScan old new 0 (old ++ t) = new ++ replaceScan old new 0 t := by
  cases old with
  | nil => exact absurd rfl h
  | cons c old =>
    have hp : HasPrefix (c :: (old ++ t)) (c :: old) = true := HasPrefix_append (c :: old) t
    rw [List.cons_append, replaceScan, if_pos hp, replaceScan_skip]
    simp

theorem replaceScan_nomatch (old new : Str) (c : Nat) (s : Str)
    (h : HasPrefix (c :: s) old = false) :
    replaceScan old new 0 (c :: s) = c :: replaceScan old new 0 s := by
  rw [replaceScan, if_neg (by simp [h])]

theorem pieces_skip (v : Str) (k : Nat) (w : Str) :
    pieces v k w = pieces v 0 (w.drop k) := by
  induction k generalizing w with
  | zero => rfl
  | succ k ih =>
    cases w with
    | nil => rfl
    | cons c w => rw [pieces, ih, List.drop_succ_cons]

theorem substituteAll_skip (v : Str) (k : Nat) (w : Str) :
    substituteAll v k w = substituteAll v 0 (w.drop k) := by
  induction k generalizing w with
  | zero => rfl
  | succ k ih =>
    cases w with
    | nil => rfl
    | cons c w => rw [substituteAll, ih, List.drop_succ_cons]

/-- Where the pattern of `v` starts the subject, the cut continues after the
first `len(v)` characters. -/
theorem pieces_match (v a w : Str) (hv : v ≠ []) (hlen : a.length = v.length)
    (h : HasPrefix (MakeMask (a ++ w)) (MakeMask v) = true) :
    pieces v 0 (a ++ w) = .token :: pieces v 0 w := by
  cases a with
  | nil =>
    have : v = [] := List.length_eq_zero.1 hlen.symm
    exact absurd this hv
  | cons c a =>
    rw [List.cons_append] at h ⊢
    rw [pieces, if_pos h, pieces_skip]
    have : v.length - 1 = a.length := by simp at hlen; omega
    rw [this, List.drop_left]

theorem pieces_nomatch (v : Str) (c : Nat) (w : Str)
    (h : HasPrefix (MakeMask (c :: w)) (MakeMask v) = false) :
    pieces v 0 (c :: w) = .keep c :: pieces v 0 w := by
  rw [pieces, if_neg (by simp [h])]

theorem substituteAll_match (v a w : Str) (hv : v ≠ []) (hlen : a.length = v.length)
    (h : HasPrefix (MakeMask (a ++ w)) (MakeMask v) = true) :
    substituteAll v 0 (a ++ w) = v ++ substituteAll v 0 w := by
  cases a with
  | nil =>
    have : v = [] := List.length_eq_zero.1 hlen.symm
    exact absurd this hv
  | cons c a =>
    rw [List.cons_append] at h ⊢
    rw [substituteAll, if_pos h, substituteAll_skip]
    have : v.length - 1 = a.length := by simp at hlen; omega
    rw [this, List.drop_left]

theorem substituteAll_nomatch (v : Str) (c : Nat) (w : Str)
    (h : HasPrefix (MakeMask (c :: w)) (MakeMask v) = false) :
    substituteAll v 0 (c :: w) = c :: substituteAll v 0 w := by
  rw [substituteAll, if_neg (by simp [h])]

/-- The mask of a non-empty string starts with `?` or with a character of no
class, never with a class letter. -/
theorem HasPrefix_classLetter_MakeMask (c : Nat) (s v : Str) (hv : v ≠ []) :
    HasPrefix (classLetter c :: s) (MakeMask v) = false := by
  cases v with
  | nil => exact absurd rfl hv
  | cons d v =>
    rw [MakeMask_cons, maskUnit_eq]
    cases hd : isClass d
    · simp only [Bool.false_eq_true, if_false, List.cons_append, List.nil_append]
      exact HasPrefix_head_ne (not_isClass_ne_classLetter hd c).symm _ _
    · simp only [if_true, List.cons_append, List.nil_append]
      exact HasPrefix_head_ne (classLetter_ne_63 c) _ _

/-- Induction on the subject along the cut: either the pattern of `v` starts the
subject, which then splits into `len(v)` characters of that pattern and a rest, or
the first character is kept. -/
theorem subject_cases (v : Str) (c : Nat) (w : Str) :
    (HasPrefix (MakeMask (c :: w)) (MakeMask v) = true ∧
      ∃ a w', c :: w = a ++ w' ∧ a.length = v.length ∧ MakeMask a = MakeMask v) ∨
    HasPrefix (MakeMask (c :: w)) (MakeMask v) = false := by
  cases h : HasPrefix (MakeMask (c :: w)) (MakeMask v)
  · exact Or.inr rfl
  · exact Or.inl ⟨rfl, HasPrefix_MakeMask_split v _ h⟩

/-- Step 1: the substitution of the token for its mask in the mask of the subject
writes the token over the occurrences of the cut and leaves the class tokens of
the kept characters. -/
theorem replaceScan_MakeMask (v : Str) (hv : v ≠ []) :
    ∀ (n : Nat) (w : Str), w.length ≤ n →
      replaceScan (MakeMask v) v 0 (MakeMask w) = render [] v (pieces v 0 w) := by
  have hmv : MakeMask v ≠ [] := fun h => hv (MakeMask_eq_nil h)
  intro n
  induction n with
  | zero =>
    intro w hw
    have : w = [] := List.length_eq_zero.1 (Nat.le_zero.1 hw)
    subst this
    rfl
  | succ n ih =>
    intro w hw
    cases w with
    | nil => rfl
    | cons c w =>
      rcases subject_cases v c w with ⟨h, a, w', hsplit, hlen, hmask⟩ | h
      · have hw' : w'.length ≤ n := by
          have := congrArg List.length hsplit
          have hvpos : 0 < v.length := List.length_pos.2 hv
          simp at this hw
          omega
        rw [hsplit] at h ⊢
        rw [pieces_match v a w' hv hlen h, MakeMask_append, hmask,
          replaceScan_match _ _ _ hmv, ih w' hw', render]
      · rw [pieces_nomatch v c w h, render, ← ih w (by simpa using hw)]
        rw [MakeMask_cons] at h ⊢
        rw [collapsedUnit]
        rw [maskUnit_eq] at h ⊢
        cases hc : isClass c
        · simp only [hc, Bool.false_eq_true, if_false, List.cons_append, List.nil_append] at h ⊢
          exact replaceScan_nomatch _ _ _ _ h
        · simp only [hc, if_true, List.cons_append, List.nil_append, List.not_mem_nil,
            if_false] at h ⊢
          rw [replaceScan_nomatch _ _ _ _ h,
            replaceScan_nomatch _ _ _ _ (HasPrefix_classLetter_MakeMask c _ v hv)]

/-! ### The collapse of the class tokens -/

theorem replaceScan_append_no63 (x : Nat) (a r : Str) (ha : 63 ∉ a) :
    replaceScan [63, x] [63] 0 (a ++ r) = a ++ replaceScan [63, x] [63] 0 r := by
  induction a with
  | nil => rfl
  | cons c a ih =>
    have hc : c ≠ 63 := fun h => ha (by simp [h])
    have ha' : 63 ∉ a := fun h => ha (List.mem_cons_of_mem _ h)
    rw [List.cons_append, replaceScan_nomatch _ _ _ _ (HasPrefix_head_ne hc _ _), ih ha',
      List.cons_append]

/-- The working string never continues with the class letter `x` after a kept
character, unless the token starts with `x`. -/
theorem render_head_ne (xs : List Nat) (v : Str) (x : Nat) (hx : isClass x = true)
    (hx63 : x ≠ 63) (hv : v ≠ []) (hhead : v.head? ≠ some x) (ps : List Piece) :
    (render xs v ps).head? ≠ some x := by
  cases ps with
  | nil => simp [render]
  | cons p ps =>
    cases p with
    | token =>
      cases v with
      | nil => exact absurd rfl hv
      | cons d v => simpa [render] using hhead
    | keep c =>
      rw [render, collapsedUnit]
      cases hc : isClass c
      · simp only [Bool.false_eq_true, if_false, List.cons_append, List.nil_append,
          List.head?_cons, ne_eq, Option.some.injEq]
        rintro rfl
        rw [hx] at hc
        exact absurd hc (by decide)
      · by_cases hm : classLetter c ∈ xs
        · simp only [if_true, hm, List.cons_append, List.nil_append, List.head?_cons, ne_eq,
            Option.some.injEq]
          exact fun h => hx63 h.symm
        · simp only [if_true, hm, if_false, List.cons_append, List.nil_append, List.head?_cons,
            ne_eq, Option.some.injEq]
          exact fun h => hx63 h.symm

/-- Step 2, one pass: collapsing `?x` to `?` in the working string collapses the
class tokens of letter `x` of the kept characters and nothing else, provided the
token holds no `?` and, once a letter has been collapsed, does not start with `x`. -/
theorem replaceScan_render (xs : List Nat) (v : Str) (x : Nat) (hx : isClass x = true)
    (hx63 : x ≠ 63) (hv : v ≠ []) (hq : 63 ∉ v) (hhead : xs = [] ∨ v.head? ≠ some x)
    (ps : List Piece) :
    replaceScan [63, x] [63] 0 (render xs v ps) = render (x :: xs) v ps := by
  induction ps with
  | nil => rfl
  | cons p ps ih =>
    cases p with
    | token => rw [render, render, replaceScan_append_no63 x v _ hq, ih]
    | keep c =>
      rw [render, render, collapsedUnit, collapsedUnit]
      cases hc : isClass c
      · have hc63 : c ≠ 63 := not_isClass_ne_63 hc
        simp only [Bool.false_eq_true, if_false, List.cons_append, List.nil_append]
        rw [replaceScan_nomatch _ _ _ _ (HasPrefix_head_ne hc63 _ _), ih]
      · simp only [if_true]
        by_cases hm : classLetter c ∈ xs
        · have hm' : classLetter c ∈ x :: xs := List.mem_cons_of_mem _ hm
          have hne : xs ≠ [] := List.ne_nil_of_mem hm
          have hh : v.head? ≠ some x := hhead.resolve_left hne
          simp only [hm, hm', if_true, List.cons_append, List.nil_append]
          have hno : HasPrefix (63 :: render xs v ps) [63, x] = false := by
            rw [HasPrefix_cons_cons]
            have := render_head_ne xs v x hx hx63 hv hh ps
            cases hp : HasPrefix (render xs v ps) [x]
            · simp
            · exact absurd ((HasPrefix_singleton _ _).1 hp) this
          rw [replaceScan_nomatch _ _ _ _ hno, ih]
        · by_cases hcx : classLetter c = x
          · have hm' : classLetter c ∈ x :: xs := by simp [hcx]
            simp only [hm, hm', if_true, if_false]
            rw [hcx, replaceScan_match [63, x] [63] _ (by simp), ih]
          · have hm' : classLetter c ∉ x :: xs := by simp [hm, hcx]
            simp only [hm, hm', if_false, List.cons_append, List.nil_append]
            have h1 : HasPrefix (63 :: classLetter c :: render xs v ps) [63, x] = false := by
              simp [HasPrefix, hcx]
            have h2 : HasPrefix (classLetter c :: render xs v ps) [63, x] = false :=
              HasPrefix_head_ne (classLetter_ne_63 c) _ _
            rw [replaceScan_nomatch _ _ _ _ h1, replaceScan_nomatch _ _ _ _ h2, ih]

theorem ReplaceAll_collapse (s : Str) (x : Nat) :
    ReplaceAll s [63, x] [63] = replaceScan [63, x] [63] 0 s := by
  simp [ReplaceAll, Replace]

/-- Step 2: after the four collapsing passes, in the order `?u`, `?l`, `?d`, `?s`,
every kept class character stands as a single `?`, for a token without `?` whose
first character is none of `l`, `d`, `s`. -/
theorem collapse_render (v : Str) (hv : v ≠ []) (hq : 63 ∉ v)
    (hl : v.head? ≠ some (chr 'l')) (hd : v.head? ≠ some (chr 'd'))
    (hs : v.head? ≠ some (chr 's')) (ps : List Piece) :
    ReplaceAll (ReplaceAll (ReplaceAll (ReplaceAll (render [] v ps)
      (ascii "?u") (ascii "?")) (ascii "?l") (ascii "?")) (ascii "?d") (ascii "?"))
      (ascii "?s") (ascii "?") = render allLetters v ps := by
  have e1 : ascii "?u" = [63, chr 'u'] := by decide
  have e2 : ascii "?l" = [63, chr 'l'] := by decide
  have e3 : ascii "?d" = [63, chr 'd'] := by decide
  have e4 : ascii "?s" = [63, chr 's'] := by decide
  have e5 : ascii "?" = [63] := by decide
  rw [e1, e2, e3, e4, e5, ReplaceAll_collapse, ReplaceAll_collapse, ReplaceAll_collapse,
    ReplaceAll_collapse,
    replaceScan_render [] v (chr 'u') (by decide) (by decide) hv hq (Or.inl rfl),
    replaceScan_render _ v (chr 'l') (by decide) (by decide) hv hq (Or.inr hl),
    replaceScan_render _ v (chr 'd') (by decide) (by decide) hv hq (Or.inr hd),
    replaceScan_render _ v (chr 's') (by decide) (by decide) hv hq (Or.inr hs)]
  rfl

/-! ### ASCII strings: bytes and runes coincide -/

theorem isASCII_cons (c : Nat) (s : Str) :
    isASCII (c :: s) = true ↔ c < 128 ∧ isASCII s = true := by
  simp [isASCII]

theorem isASCII_append (a b : Str) :
    isASCII (a ++ b) = true ↔ isASCII a = true ∧ isASCII b = true := by
  simp [isASCII]

theorem runeWidth_ascii (c : Nat) (s : Str) (hc : c < 128) : runeWidth (c :: s) = 1 := by
  simp [runeWidth, decodeRune, hc]

theorem decodeRune_ascii (c : Nat) (s : Str) (hc : c < 128) : (decodeRune (c :: s)).1 = c := by
  simp [decodeRune, hc]

theorem runesAux_ascii : ∀ (fuel : Nat) (s : Str), isASCII s = true → s.length ≤ fuel →
    runesAux fuel s = s := by
  intro fuel
  induction fuel with
  | zero =>
    intro s _ h
    have : s = [] := List.length_eq_zero.1 (Nat.le_zero.1 h)
    subst this
    rfl
  | succ fuel ih =>
    intro s hs h
    cases s with
    | nil => rfl
    | cons c s =>
      obtain ⟨hc, hs'⟩ := (isASCII_cons c s).1 hs
      rw [runesAux, runeWidth_ascii c s hc, decodeRune_ascii c s hc]
      simp only [List.drop_succ_cons, List.drop_zero]
      rw [ih s hs' (by simpa using h)]

theorem runes_ascii (s : Str) (hs : isASCII s = true) : runes s = s :=
  runesAux_ascii s.length s hs (le_refl _)

theorem rangeAux_ascii : ∀ (fuel i : Nat) (s : Str), isASCII s = true → s.length ≤ fuel →
    rangeAux fuel i s = List.range' i s.length := by
  intro fuel
  induction fuel with
  | zero =>
    intro i s _ h
    have : s = [] := List.length_eq_zero.1 (Nat.le_zero.1 h)
    subst this
    rfl
  | succ fuel ih =>
    intro i s hs h
    cases s with
    | nil => rfl
    | cons c s =>
      obtain ⟨hc, hs'⟩ := (isASCII_cons c s).1 hs
      rw [rangeAux, runeWidth_ascii c s hc]
      simp only [List.drop_succ_cons, List.drop_zero]
      rw [ih (i + 1) s hs' (by simpa using h)]
      simp [List.range'_succ]

theorem rangeIndices_ascii (s : Str) (hs : isASCII s = true) :
    rangeIndices s = List.range' 0 s.length :=
  rangeAux_ascii s.length 0 s hs (le_refl _)

theorem runesToString_ascii (s : Str) (hs : isASCII s = true) : runesToString s = s := by
  induction s with
  | nil => rfl
  | cons c s ih =>
    obtain ⟨hc, hs'⟩ := (isASCII_cons c s).1 hs
    have := ih hs'
    unfold runesToString at this ⊢
    simp [encodeRune, hc, this]

theorem isASCII_set (s : Str) (i r : Nat) (hs : isASCII s = true) (hr : r < 128) :
    isASCII (s.set i r) = true := by
  rw [isASCII_iff] at hs ⊢
  intro b hb
  rcases List.mem_or_eq_of_mem_set hb with h | h
  · exact hs b h
  · omega

/-- On ASCII strings `ReplaceAtIndex` overwrites the byte at index `i`. -/
theorem ReplaceAtIndex_ascii (s : Str) (r i : Nat) (hs : isASCII s = true) (hr : r < 128)
    (hi : i < s.length) : ReplaceAtIndex s r (i : Int) = some (s.set i r) := by
  unfold ReplaceAtIndex
  have h1 : ¬ ((i : Int) < 0 ∨ (i : Int) ≥ (s.length : Int)) := by omega
  have h2 : (0 : Int) ≤ (i : Int) ∧ (i : Int) < (s.length : Int) := by omega
  simp only [runes_ascii s hs]
  rw [if_neg h1, if_pos h2, Int.toNat_ofNat, runesToString_ascii _ (isASCII_set s i r hs hr)]

/-! ### The restoring loop -/

theorem getD_append_cons (pre : Str) (x : Nat) (rest : Str) :
    (pre ++ x :: rest).getD pre.length 0 = x := by
  induction pre with
  | nil => rfl
  | cons p pre ih => simpa using ih

theorem restore_noop (W : Str) (st : Str) :
    ∀ (m k : Nat), st.length ≤ k →
      (List.range' k m).foldl (restoreStep W) (some st) = some st := by
  intro m
  induction m with
  | zero => intro k _; rfl
  | succ m ih =>
    intro k hk
    rw [List.range'_succ, List.foldl_cons]
    have : restoreStep W (some st) k = some st := by
      simp only [restoreStep]
      rw [if_neg (by omega)]
    rw [this, ih (k + 1) (by omega)]

/-- Step 3: on ASCII strings the restoring loop computes `restoreSpec`. -/
theorem restore_loop (W : Str) (hW : isASCII W = true) :
    ∀ (w wpre pre nw : Str), W = wpre ++ w → wpre.length = pre.length →
      isASCII pre = true → isASCII nw = true →
      (List.range' pre.length w.length).foldl (restoreStep W) (some (pre ++ nw))
        = some (pre ++ restoreSpec w nw) := by
  intro w
  induction w with
  | nil =>
    intro wpre pre nw _ _ _ _
    simp [restoreSpec]
  | cons c w ih =>
    intro wpre pre nw hsplit hlen hpre hnw
    have hc : c < 128 := by
      have := (isASCII_iff W).1 hW c (by rw [hsplit]; simp)
      exact this
    cases nw with
    | nil =>
      rw [restoreSpec, List.append_nil]
      exact restore_noop W pre _ _ (le_refl _)
    | cons x nw =>
      obtain ⟨hx, hnw'⟩ := (isASCII_cons x nw).1 hnw
      rw [List.length_cons, List.range'_succ, List.foldl_cons]
      have hget : (pre ++ x :: nw).getD pre.length 0 = x := getD_append_cons pre x nw
      have hWget : W.getD pre.length 0 = c := by
        rw [hsplit, ← hlen]
        exact getD_append_cons wpre c w
      have hlt : pre.length < (pre ++ x :: nw).length := by simp
      have hsplit' : W = (wpre ++ [c]) ++ w := by simp [hsplit]
      by_cases hx63 : x = 63
      · have hstep : restoreStep W (some (pre ++ x :: nw)) pre.length
            = some ((pre ++ [c]) ++ nw) := by
          simp only [restoreStep]
          rw [if_pos hlt, if_pos (by rw [hget, hx63]), hWget,
            ReplaceAtIndex_ascii _ c _ ((isASCII_append _ _).2 ⟨hpre, hnw⟩) hc hlt]
          simp
        rw [hstep]
        have := ih (wpre ++ [c]) (pre ++ [c]) nw hsplit' (by simp [hlen])
          ((isASCII_append _ _).2 ⟨hpre, by simp [isASCII, hc]⟩) hnw'
        simp only [List.length_append, List.length_singleton] at this
        rw [this, restoreSpec, if_pos hx63]
        simp
      · have hstep : restoreStep W (some (pre ++ x :: nw)) pre.length
            = some ((pre ++ [x]) ++ nw) := by
          simp only [restoreStep]
          rw [if_pos hlt, if_neg (by rw [hget]; exact hx63)]
          simp
        rw [hstep]
        have := ih (wpre ++ [c]) (pre ++ [x]) nw hsplit' (by simp [hlen])
          ((isASCII_append _ _).2 ⟨hpre, by simp [isASCII, hx]⟩) hnw'
        simp only [List.length_append, List.length_singleton] at this
        rw [this, restoreSpec, if_neg hx63]
        simp

theorem restore_ascii (w nw : Str) (hw : isASCII w = true) (hnw : isASCII nw = true) :
    (rangeIndices w).foldl (restoreStep w) (some nw) = some (restoreSpec w nw) := by
  rw [rangeIndices_ascii w hw]
  have := restore_loop w hw w [] [] nw rfl rfl rfl hnw
  simpa using this

/-! ### From the working string to the result -/

theorem classLetter_mem_allLetters (c : Nat) : classLetter c ∈ allLetters := by
  unfold classLetter
  split_ifs <;> decide

theorem collapsedUnit_allLetters (c : Nat) :
    collapsedUnit allLetters c = if isClass c then [63] else [c] := by
  simp [collapsedUnit, classLetter_mem_allLetters]

theorem restoreSpec_cons_cons (c : Nat) (w : Str) (x : Nat) (nw : Str) :
    restoreSpec (c :: w) (x :: nw) = (if x = 63 then c else x) :: restoreSpec w nw := rfl

theorem restoreSpec_append (a b w r : Str) (hlen : a.length = b.length) (hb : 63 ∉ b) :
    restoreSpec (a ++ w) (b ++ r) = b ++ restoreSpec w r := by
  induction a generalizing b with
  | nil =>
    have : b = [] := List.length_eq_zero.1 hlen.symm
    subst this
    rfl
  | cons c a ih =>
    cases b with
    | nil => simp at hlen
    | cons x b =>
      have hx : x ≠ 63 := fun h => hb (by simp [h])
      have hb' : 63 ∉ b := fun h => hb (List.mem_cons_of_mem _ h)
      simp only [List.cons_append, restoreSpec_cons_cons, if_neg hx]
      rw [ih b (by simpa using hlen) hb']

/-- Step 3, on the cut: restoring the collapsed working string from the subject
gives the subject with the token written over the occurrences. -/
theorem restoreSpec_render (v : Str) (hv : v ≠ []) (hq : 63 ∉ v) :
    ∀ (n : Nat) (w : Str), w.length ≤ n →
      restoreSpec w (render allLetters v (pieces v 0 w)) = substituteAll v 0 w := by
  intro n
  induction n with
  | zero =>
    intro w hw
    have : w = [] := List.length_eq_zero.1 (Nat.le_zero.1 hw)
    subst this
    rfl
  | succ n ih =>
    intro w hw
    cases w with
    | nil => rfl
    | cons c w =>
      rcases subject_cases v c w with ⟨h, a, w', hsplit, hlen, -⟩ | h
      · have hw' : w'.length ≤ n := by
          have := congrArg List.length hsplit
          have hvpos : 0 < v.length := List.length_pos.2 hv
          simp at this hw
          omega
        rw [hsplit] at h ⊢
        rw [pieces_match v a w' hv hlen h, substituteAll_match v a w' hv hlen h, render,
          restoreSpec_append a v w' _ hlen hq, ih w' hw']
      · rw [pieces_nomatch v c w h, substituteAll_nomatch v c w h, render,
          collapsedUnit_allLetters]
        cases hc : isClass c
        · have := not_isClass_ne_63 hc
          simp only [Bool.false_eq_true, if_false, List.cons_append, List.nil_append,
            restoreSpec_cons_cons, if_neg this]
          rw [ih w (by simpa using hw)]
        · simp only [if_true, List.cons_append, List.nil_append, restoreSpec_cons_cons]
          rw [ih w (by simpa using hw)]

theorem isASCII_render (v : Str) (hv : v ≠ []) (hva : isASCII v = true) :
    ∀ (n : Nat) (w : Str), w.length ≤ n → isASCII w = true →
      isASCII (render allLetters v (pieces v 0 w)) = true := by
  intro n
  induction n with
  | zero =>
    intro w hw _
    have : w = [] := List.length_eq_zero.1 (Nat.le_zero.1 hw)
    subst this
    rfl
  | succ n ih =>
    intro w hw hwa
    cases w with
    | nil => rfl
    | cons c w =>
      rcases subject_cases v c w with ⟨h, a, w', hsplit, hlen, -⟩ | h
      · have hw' : w'.length ≤ n := by
          have := congrArg List.length hsplit
          have hvpos : 0 < v.length := List.length_pos.2 hv
          simp at this hw
          omega
        rw [hsplit] at h hwa ⊢
        rw [pieces_match v a w' hv hlen h, render, isASCII_append]
        exact ⟨hva, ih w' hw' ((isASCII_append _ _).1 hwa).2⟩
      · obtain ⟨hc, hwa'⟩ := (isASCII_cons c w).1 hwa
        rw [pieces_nomatch v c w h, render, collapsedUnit_allLetters, isASCII_append]
        refine ⟨?_, ih w (by simpa using hw) hwa'⟩
        split_ifs
        · rfl
        · simp [isASCII, hc]

theorem substituteAll_length (v : Str) (hv : v ≠ []) :
    ∀ (n : Nat) (w : Str), w.length ≤ n → (substituteAll v 0 w).length = w.length := by
  intro n
  induction n with
  | zero =>
    intro w hw
    have : w = [] := List.length_eq_zero.1 (Nat.le_zero.1 hw)
    subst this
    rfl
  | succ n ih =>
    intro w hw
    cases w with
    | nil => rfl
    | cons c w =>
      rcases subject_cases v c w with ⟨h, a, w', hsplit, hlen, -⟩ | h
      · have hw' : w'.length ≤ n := by
          have := congrArg List.length hsplit
          have hvpos : 0 < v.length := List.length_pos.2 hv
          simp at this hw
          omega
        rw [hsplit] at h ⊢
        rw [substituteAll_match v a w' hv hlen h, List.length_append, List.length_append,
          ih w' hw', hlen]
      · rw [substituteAll_nomatch v c w h, List.length_cons, List.length_cons,
          ih w (by simpa using hw)]

/-! ### The acceptance test -/

theorem Contains_of_HasPrefix (s p : Str) (h : HasPrefix s p = true) : Contains s p = true := by
  cases s with
  | nil => simpa [Contains] using h
  | cons c s => simp [Contains, h]

theorem Contains_cons_of_Contains (c : Nat) (s p : Str) (h : Contains s p = true) :
    Contains (c :: s) p = true := by
  simp [Contains, h]

/-- Occurrences of the mask of a token in the mask of a subject start at the
unit of a character of the subject. -/
theorem Contains_MakeMask_cons (v : Str) (hv : v ≠ []) (c : Nat) (w : Str)
    (h : HasPrefix (MakeMask (c :: w)) (MakeMask v) = false) :
    Contains (MakeMask (c :: w)) (MakeMask v) = Contains (MakeMask w) (MakeMask v) := by
  rw [MakeMask_cons] at h ⊢
  rw [maskUnit_eq] at h ⊢
  cases hc : isClass c
  · simp only [hc, Bool.false_eq_true, if_false, List.cons_append, List.nil_append] at h ⊢
    rw [Contains, h, Bool.false_or]
  · simp only [hc, if_true, List.cons_append, List.nil_append] at h ⊢
    rw [Contains, h, Bool.false_or, Contains, HasPrefix_classLetter_MakeMask c _ v hv,
      Bool.false_or]

theorem Contains_nil_MakeMask (v : Str) (hv : v ≠ []) : Contains [] (MakeMask v) = false := by
  have hmv : MakeMask v ≠ [] := fun h => hv (MakeMask_eq_nil h)
  cases hm : MakeMask v with
  | nil => exact absurd hm hmv
  | cons x xs => rfl

theorem Contains_MakeMask_length (v : Str) (hv : v ≠ []) (w : Str)
    (h : Contains (MakeMask w) (MakeMask v) = true) : v.length ≤ w.length := by
  induction w with
  | nil =>
    rw [MakeMask_nil, Contains_nil_MakeMask v hv] at h
    exact absurd h (by decide)
  | cons c w ih =>
    rcases subject_cases v c w with ⟨-, a, w', hsplit, hlen, -⟩ | hno
    · have := congrArg List.length hsplit
      simp at this
      simp
      omega
    · rw [Contains_MakeMask_cons v hv c w hno] at h
      have := ih h
      simp
      omega

/-- The result holds the token wherever the mask of the subject holds the mask
of the token. -/
theorem Contains_substituteAll (v : Str) (hv : v ≠ []) (w : Str)
    (h : Contains (MakeMask w) (MakeMask v) = true) :
    Contains (substituteAll v 0 w) v = true := by
  induction w with
  | nil =>
    rw [MakeMask_nil, Contains_nil_MakeMask v hv] at h
    exact absurd h (by decide)
  | cons c w ih =>
    rcases subject_cases v c w with ⟨hyes, a, w', hsplit, hlen, -⟩ | hno
    · rw [hsplit] at hyes ⊢
      rw [substituteAll_match v a w' hv hlen hyes]
      exact Contains_of_HasPrefix _ _ (HasPrefix_append v _)
    · rw [Contains_MakeMask_cons v hv c w hno] at h
      rw [substituteAll_nomatch v c w hno]
      exact Contains_cons_of_Contains _ _ _ (ih h)

/-- The result is the bare token only when subject and token have the same mask. -/
theorem substituteAll_ne (v : Str) (hv : v ≠ []) (w : Str)
    (h : Contains (MakeMask w) (MakeMask v) = true) (hne : MakeMask w ≠ MakeMask v) :
    substituteAll v 0 w ≠ v := by
  intro heq
  have hlen : w.length = v.length := by
    rw [← substituteAll_length v hv w.length w (le_refl _), heq]
  cases w with
  | nil =>
    have : v = [] := List.length_eq_zero.1 hlen.symm
    exact hv this
  | cons c w =>
    rcases subject_cases v c w with ⟨-, a, w', hsplit, hlena, hmask⟩ | hno
    · have hl := congrArg List.length hsplit
      rw [List.length_append, hlena, hlen] at hl
      have hw' : w' = [] := List.length_eq_zero.1 (by omega)
      rw [hw', List.append_nil] at hsplit
      exact hne (by rw [hsplit, hmask])
    · rw [Contains_MakeMask_cons v hv c w hno] at h
      have := Contains_MakeMask_length v hv w h
      simp at hlen
      omega

theorem replaceScan_self (old : Str) (hold : old ≠ []) :
    ∀ (n : Nat) (s : Str), s.length ≤ n → replaceScan old old 0 s = s := by
  intro n
  induction n with
  | zero =>
    intro s hs
    have : s = [] := List.length_eq_zero.1 (Nat.le_zero.1 hs)
    subst this
    rfl
  | succ n ih =>
    intro s hs
    cases s with
    | nil => rfl
    | cons c s =>
      cases hp : HasPrefix (c :: s) old
      · rw [replaceScan_nomatch _ _ _ _ hp, ih s (by simpa using hs)]
      · obtain ⟨t, ht⟩ := (HasPrefix_iff _ _).1 hp
        have hlen : t.length ≤ n := by
          have := congrArg List.length ht
          have hpos : 0 < old.length := List.length_pos.2 hold
          simp at this hs
          omega
        rw [ht, replaceScan_match _ _ _ hold, ih t hlen]

theorem Replace_MakeMask (v w : Str) (hv : v ≠ []) :
    Replace (MakeMask w) (MakeMask v) v = render [] v (pieces v 0 w) := by
  have hmv : MakeMask v ≠ [] := fun h => hv (MakeMask_eq_nil h)
  rw [← replaceScan_MakeMask v hv w.length w (le_refl _)]
  unfold Replace
  by_cases h : MakeMask v = v
  · rw [if_pos h]
    conv_rhs => rw [h]
    rw [h] at hmv
    exact (replaceScan_self v hmv _ _ (le_refl _)).symm
  · rw [if_neg h, if_neg hmv]

/-- The working of `ReplaceWord` on an ASCII subject and its own mask, for a
non-empty ASCII token without `?` whose first character is none of `l`, `d`, `s`
and whose mask occurs in the mask of the subject: the loop ends with the subject
in which the token is written over every occurrence of its class pattern, and
that string is returned when it passes the acceptance test. -/
theorem ReplaceWord_of_nice (w v : Str) (hw : isASCII w = true) (hva : isASCII v = true)
    (hv : v ≠ []) (hq : chr '?' ∉ v) (hl : v.head? ≠ some (chr 'l'))
    (hd : v.head? ≠ some (chr 'd')) (hs : v.head? ≠ some (chr 's'))
    (hocc : Contains (MakeMask w) (MakeMask v) = true) :
    ReplaceWord w (MakeMask w) v =
      some (if Contains (substituteAll v 0 w) v && substituteAll v 0 w != v
        then substituteAll v 0 w else []) := by
  have hq' : 63 ∉ v := hq
  unfold ReplaceWord
  simp only [hocc, if_true]
  rw [Replace_MakeMask v w hv, collapse_render v hv hq' hl hd hs,
    restore_ascii w _ hw (isASCII_render v hv hva w.length w (le_refl _) hw),
    restoreSpec_render v hv hq' w.length w (le_refl _)]
  simp only
  split_ifs <;> rfl

/-- On an ASCII subject whose mask holds the mask of the token without being
equal to it, `ReplaceWord` returns the subject with the token written over every
occurrence of its class pattern, for a non-empty ASCII token without `?` whose
first character is none of `l`, `d`, `s`. -/
theorem ReplaceWord_eq_substituteAll (w v : Str) (hw : isASCII w = true)
    (hva : isASCII v = true) (hv : v ≠ []) (hq : chr '?' ∉ v)
    (hl : v.head? ≠ some (chr 'l')) (hd : v.head? ≠ some (chr 'd'))
    (hs : v.head? ≠ some (chr 's'))
    (hocc : Contains (MakeMask w) (MakeMask v) = true) (hne : MakeMask w ≠ MakeMask v) :
    ReplaceWord w (MakeMask w) v = some (substituteAll v 0 w) := by
  rw [ReplaceWord_of_nice w v hw hva hv hq hl hd hs hocc, Contains_substituteAll v hv w hocc]
  have := substituteAll_ne v hv w hocc hne
  simp [this]

/-! ### The empty token -/

theorem render_keep_nil (v : Str) (w : Str) :
    render [] v (w.map Piece.keep) = MakeMask w := by
  induction w with
  | nil => rfl
  | cons c w ih =>
    rw [List.map_cons, render, ih, MakeMask_cons, maskUnit_eq, collapsedUnit]
    simp

theorem restoreSpec_render_keep (v : Str) (w : Str) :
    restoreSpec w (render allLetters v (w.map Piece.keep)) = w := by
  induction w with
  | nil => rfl
  | cons c w ih =>
    rw [List.map_cons, render, collapsedUnit_allLetters]
    cases hc : isClass c
    · have := not_isClass_ne_63 hc
      simp only [Bool.false_eq_true, if_false, List.cons_append, List.nil_append,
        restoreSpec_cons_cons, if_neg this, ih]
    · simp only [if_true, List.cons_append, List.nil_append, restoreSpec_cons_cons, ih]

theorem isASCII_render_keep (v : Str) (w : Str) (hw : isASCII w = true) :
    isASCII (render allLetters v (w.map Piece.keep)) = true := by
  induction w with
  | nil => rfl
  | cons c w ih =>
    obtain ⟨hc, hw'⟩ := (isASCII_cons c w).1 hw
    rw [List.map_cons, render, collapsedUnit_allLetters, isASCII_append]
    refine ⟨?_, ih hw'⟩
    split_ifs
    · rfl
    · simp [isASCII, hc]

theorem Contains_nil_right (s : Str) : Contains s [] = true :=
  Contains_of_HasPrefix s [] (HasPrefix_nil s)

/-- With the empty token, `ReplaceWord` on an ASCII subject and its own mask
returns the subject. -/
theorem ReplaceWord_empty_token (w : Str) (hw : isASCII w = true) :
    ReplaceWord w (MakeMask w) [] = some w := by
  unfold ReplaceWord
  have h0 : MakeMask [] = [] := rfl
  simp only [h0, Contains_nil_right, if_true]
  have hrep : Replace (MakeMask w) [] [] = render [] [0] (w.map Piece.keep) := by
    rw [render_keep_nil]
    simp [Replace]
  rw [hrep, collapse_render [0] (by simp) (by simp) (by decide) (by decide) (by decide),
    restore_ascii w _ hw (isASCII_render_keep [0] w hw), restoreSpec_render_keep]
  cases w with
  | nil => rfl
  | cons c w => simp

/-- C3, amended: for every ASCII subject and every ASCII token that contains no
`?` and whose first character is none of `l`, `d`, `s`, `ReplaceWord` on the
subject and its own mask returns, and a non-empty result has the length of the
subject. -/
theorem ReplaceWord_length_of_nice (w v : Str) (hw : isASCII w = true) (hv : isASCII v = true)
    (hq : chr '?' ∉ v) (hl : v.head? ≠ some (chr 'l')) (hd : v.head? ≠ some (chr 'd'))
    (hs : v.head? ≠ some (chr 's')) :
    ∃ r, ReplaceWord w (MakeMask w) v = some r ∧ (r ≠ [] → r.length = w.length) := by
  by_cases hv0 : v = []
  · subst hv0
    exact ⟨w, ReplaceWord_empty_token w hw, fun _ => rfl⟩
  · cases hocc : Contains (MakeMask w) (MakeMask v)
    · refine ⟨[], ?_, fun h => absurd rfl h⟩
      unfold ReplaceWord
      simp [hocc]
    · refine ⟨_, ReplaceWord_of_nice w v hw hv hv0 hq hl hd hs hocc, ?_⟩
      split_ifs
      · intro _
        exact substituteAll_length v hv0 w.length w (le_refl _)
      · intro h
        exact absurd rfl h

/-- C3, amended, at subject `Hello Jello` and token `Hello`. -/
theorem ReplaceWord_length_of_nice_witness :
    ∃ r, ReplaceWord (ascii "Hello Jello") (MakeMask (ascii "Hello Jello")) (ascii "Hello")
      = some r ∧ (r ≠ [] → r.length = (ascii "Hello Jello").length) :=
  ReplaceWord_length_of_nice (ascii "Hello Jello") (ascii "Hello") (by decide) (by decide)
    (by decide) (by decide) (by decide) (by decide)

set_option maxRecDepth 100000 in
/-- C3 as stated fails: with subject `aaAaa` and token `ll` the result `llAl` is
non-empty and one byte shorter than the subject, the collapse of `?l` having
consumed an `l` of the token; with the UTF-8 subject `éAéb` (6 bytes) and token
`b` the result has 5 bytes, the loop indexing runes by byte offsets. -/
theorem ReplaceWord_length_counterexample :
    ReplaceWord (ascii "aaAaa") (MakeMask (ascii "aaAaa")) (ascii "ll") = some (ascii "llAl") ∧
    ascii "llAl" ≠ [] ∧ (ascii "llAl").length ≠ (ascii "aaAaa").length ∧
    ReplaceWord [195, 169, 65, 195, 169, 98] (MakeMask [195, 169, 65, 195, 169, 98]) (ascii "b")
      = some [195, 169, 63, 65, 98] ∧
    [195, 169, 63, 65, 98].length ≠ [195, 169, 65, 195, 169, 98].length := by
  decide

set_option maxRecDepth 100000 in
/-- C1 (the code at the failing inputs): for subject `Aaa` and token `l` the mask
`?l` occurs in the mask `?u?l?l` without being equal to it and the string of the
claim is `All`, yet `ReplaceWord` returns `Al`: the pass that collapses `?l`
consumes the first inserted `l` after the collapsed `?u`.  For subject `!bc` and
token `?a` the string of the claim is `?ac`, yet `ReplaceWord` returns the empty
string: the restoring loop overwrites the `?` of the token.  The example of the
test, `Hello Jello` with token `Hello`, gives `Hello Hello`. -/
theorem ReplaceWord_token_consumed :
    Contains (MakeMask (ascii "Aaa")) (MakeMask (ascii "l")) = true ∧
    MakeMask (ascii "Aaa") ≠ MakeMask (ascii "l") ∧
    substituteAll (ascii "l") 0 (ascii "Aaa") = ascii "All" ∧
    ReplaceWord (ascii "Aaa") (MakeMask (ascii "Aaa")) (ascii "l") = some (ascii "Al") ∧
    Contains (MakeMask (ascii "!bc")) (MakeMask (ascii "?a")) = true ∧
    MakeMask (ascii "!bc") ≠ MakeMask (ascii "?a") ∧
    substituteAll (ascii "?a") 0 (ascii "!bc") = ascii "?ac" ∧
    ReplaceWord (ascii "!bc") (MakeMask (ascii "!bc")) (ascii "?a") = some [] ∧
    ReplaceWord (ascii "Hello Jello") (ascii "?u?l?l?l?l?s?u?l?l?l?l") (ascii "Hello")
      = some (ascii "Hello Hello") := by
  decide

set_option maxRecDepth 100000 in
/-- C4 as stated fails: the mask of `Hello Jello` holds the mask of `Hello`
twice, and `ReplaceWord`, which takes no limit and calls `strings.Replace` with
`n = -1`, writes the token over both occurrences: it returns `Hello Hello`, not
the subject with only the leftmost occurrence replaced, `Hello Jello`. -/
theorem ReplaceWord_replaces_every_occurrence :
    MakeMask (ascii "Hello Jello") = ascii "?u?l?l?l?l?s?u?l?l?l?l" ∧
    Count (MakeMask (ascii "Hello Jello")) (MakeMask (ascii "Hello")) = 2 ∧
    ReplaceWord (ascii "Hello Jello") (MakeMask (ascii "Hello Jello")) (ascii "Hello")
      = some (ascii "Hello Hello") ∧
    ascii "Hello Hello" ≠ ascii "Hello Jello" := by
  decide

/-! ## The scorers -/

theorem TestComplexity_eq (m : Str) :
    TestComplexity m =
      (if Contains m (ascii "?u") then 1 else 0) + (if Contains m (ascii "?l") then 1 else 0)
      + (if Contains m (ascii "?d") then 1 else 0) + (if Contains m (ascii "?s") then 1 else 0) := by
  simp only [TestComplexity, complexityTypes, List.foldl_cons, List.foldl_nil]
  split_ifs <;> rfl

/-- C12: `TestComplexity m` lies between 0 and 4, it is 4 exactly when `m`
contains each of `?u`, `?l`, `?d` and `?s`, and it is 4 for the mask
`?u?l?l?l?l?s?s?u?l?l?l?l?d?s`. -/
theorem TestComplexity_range :
    (∀ m : Str, 0 ≤ TestComplexity m ∧ TestComplexity m ≤ 4) ∧
    (∀ m : Str, TestComplexity m = 4 ↔
      (Contains m (ascii "?u") = true ∧ Contains m (ascii "?l") = true ∧
        Contains m (ascii "?d") = true ∧ Contains m (ascii "?s") = true)) ∧
    TestComplexity (ascii "?u?l?l?l?l?s?s?u?l?l?l?l?d?s") = 4 := by
  refine ⟨?_, ?_, by decide⟩
  · intro m
    rw [TestComplexity_eq]
    constructor <;> split_ifs <;> omega
  · intro m
    rw [TestComplexity_eq]
    cases Contains m (ascii "?u") <;> cases Contains m (ascii "?l") <;>
      cases Contains m (ascii "?d") <;> cases Contains m (ascii "?s") <;> simp

/-- C18 as stated fails: for the mask `?u?l?l?l?l?d` the complexity is not 2 and
the entropy is not 52. -/
theorem scores_counterexample :
    TestComplexity (ascii "?u?l?l?l?l?d") ≠ 2 ∧ TestEntropy (ascii "?u?l?l?l?l?d") ≠ 52 := by
  decide

/-- C18, amended: for a 6-character input whose mask is `?u?l?l?l?l?d`, such as
`Hello1`, the scores are complexity 3 (the tokens `?u`, `?l`, `?d` occur) and
entropy 140 (26 + 4 * 26 + 10). -/
theorem scores_example :
    MakeMask (ascii "Hello1") = ascii "?u?l?l?l?l?d" ∧ (ascii "Hello1").length = 6 ∧
    TestComplexity (ascii "?u?l?l?l?l?d") = 3 ∧ TestEntropy (ascii "?u?l?l?l?l?d") = 140 := by
  decide

/-! ### Counting a class token -/

theorem Count_pair (x : Nat) (s : Str) : Count s [63, x] = countScan [63, x] 0 s := by
  simp [Count]

theorem countScan_pair_cons (x : Nat) (hx : x ≠ 63) (c : Nat) (s : Str) :
    countScan [63, x] 0 (c :: s)
      = (if HasPrefix (c :: s) [63, x] then 1 else 0) + countScan [63, x] 0 s := by
  by_cases h : HasPrefix (c :: s) [63, x] = true
  · rw [countScan, if_pos h, if_pos h]
    cases s with
    | nil => simp [HasPrefix] at h
    | cons d rest =>
      have hd : d = x := by
        simp [HasPrefix] at h
        exact h.2
      subst hd
      have hno : ¬ (HasPrefix (d :: rest) [63, d] = true) := by
        simp [HasPrefix_head_ne hx]
      show 1 + countScan [63, d] 1 (d :: rest) = 1 + countScan [63, d] 0 (d :: rest)
      rw [countScan, countScan, if_neg hno]
  · rw [countScan, if_neg h, if_neg h, Nat.zero_add]

/-- The occurrences of `?x` in a concatenation: those of the two parts, and one
more when the token straddles the seam. -/
theorem countScan_pair_append (x : Nat) (hx : x ≠ 63) (a b : Str) :
    countScan [63, x] 0 (a ++ b) = countScan [63, x] 0 a + countScan [63, x] 0 b
      + (if a.getLast? = some 63 ∧ b.head? = some x then 1 else 0) := by
  induction a with
  | nil => simp [countScan]
  | cons c a ih =>
    cases a with
    | nil =>
      rw [List.singleton_append, countScan_pair_cons x hx, countScan_pair_cons x hx c []]
      have h1 : HasPrefix [c] [63, x] = false := by simp [HasPrefix]
      have h2 : (HasPrefix (c :: b) [63, x] = true) ↔ (c = 63 ∧ b.head? = some x) := by
        rw [HasPrefix_cons_cons, Bool.and_eq_true, HasPrefix_singleton]
        simp
      simp only [h1, Bool.false_eq_true, if_false, List.getLast?_singleton, Option.some.injEq]
      by_cases h : c = 63 ∧ b.head? = some x
      · rw [if_pos (h2.2 h), if_pos h]
        simp [countScan]
        omega
      · rw [if_neg (fun hh => h (h2.1 hh)), if_neg h]
        simp [countScan]
    | cons d a =>
      rw [List.cons_append, countScan_pair_cons x hx, countScan_pair_cons x hx c (d :: a), ih,
        List.getLast?_cons_cons]
      have : HasPrefix (c :: (d :: a ++ b)) [63, x] = HasPrefix (c :: d :: a) [63, x] := by
        simp [HasPrefix, HasPrefix_nil]
      rw [this]
      omega

theorem TestEntropy_eq (m : Str) :
    TestEntropy m = (countScan [63, chr 'u'] 0 m : Int) * 26 + (countScan [63, chr 'l'] 0 m : Int) * 26
      + (countScan [63, chr 'd'] 0 m : Int) * 10 + (countScan [63, chr 's'] 0 m : Int) * 33 := by
  have e1 : ascii "?u" = [63, chr 'u'] := by decide
  have e2 : ascii "?l" = [63, chr 'l'] := by decide
  have e3 : ascii "?d" = [63, chr 'd'] := by decide
  have e4 : ascii "?s" = [63, chr 's'] := by decide
  simp only [TestEntropy, entropyTypes, List.foldl_cons, List.foldl_nil, e1, e2, e3, e4,
    Count_pair, Int.zero_add]

theorem TestEntropy_append (m1 m2 : Str) :
    TestEntropy (m1 ++ m2) = TestEntropy m1 + TestEntropy m2 + seamWeight m1 m2 := by
  rw [TestEntropy_eq, TestEntropy_eq, TestEntropy_eq,
    countScan_pair_append (chr 'u') (by decide), countScan_pair_append (chr 'l') (by decide),
    countScan_pair_append (chr 'd') (by decide), countScan_pair_append (chr 's') (by decide)]
  unfold seamWeight
  have c63 : chr '?' = 63 := by decide
  rw [c63]
  by_cases h : m1.getLast? = some 63
  · simp only [h, true_and, if_true]
    cases hh : m2.head? with
    | none =>
      simp
      ring
    | some y =>
      have cu : chr 'u' = 117 := by decide
      have cl : chr 'l' = 108 := by decide
      have cd : chr 'd' = 100 := by decide
      have cs : chr 's' = 115 := by decide
      simp only [cu, cl, cd, cs, Option.some.injEq]
      by_cases h1 : y = 117
      · subst h1; simp; ring
      · by_cases h2 : y = 108
        · subst h2; simp; ring
        · by_cases h3 : y = 100
          · subst h3; simp; ring
          · by_cases h4 : y = 115
            · subst h4; simp; ring
            · simp [h1, h2, h3, h4]
              ring
  · simp only [h, false_and, if_false]
    push_cast
    ring

/-- C11 as stated fails: `?` and `u` have entropy 0 each, their concatenation
`?u` has entropy 26. -/
theorem TestEntropy_append_counterexample :
    TestEntropy (ascii "?" ++ ascii "u") ≠ TestEntropy (ascii "?") + TestEntropy (ascii "u") := by
  decide

/-- C11, amended: `TestEntropy (m1 ++ m2) = TestEntropy m1 + TestEntropy m2`
holds exactly when no class token straddles the seam, that is unless `m1` ends
with `?` and `m2` starts with one of `u`, `l`, `d`, `s`. -/
theorem TestEntropy_append_iff (m1 m2 : Str) :
    TestEntropy (m1 ++ m2) = TestEntropy m1 + TestEntropy m2 ↔
      ¬ (m1.getLast? = some (chr '?') ∧
        (m2.head? = some (chr 'u') ∨ m2.head? = some (chr 'l') ∨
          m2.head? = some (chr 'd') ∨ m2.head? = some (chr 's'))) := by
  rw [TestEntropy_append]
  unfold seamWeight
  by_cases h : m1.getLast? = some (chr '?')
  · simp only [h, if_true, true_and]
    by_cases h1 : m2.head? = some (chr 'u')
    · rw [if_pos h1]
      simp [h1]
    · by_cases h2 : m2.head? = some (chr 'l')
      · rw [if_neg h1, if_pos h2]
        simp [h2]
      · by_cases h3 : m2.head? = some (chr 'd')
        · rw [if_neg h1, if_neg h2, if_pos h3]
          simp [h3]
        · by_cases h4 : m2.head? = some (chr 's')
          · rw [if_neg h1, if_neg h2, if_neg h3, if_pos h4]
            simp [h4]
          · rw [if_neg h1, if_neg h2, if_neg h3, if_neg h4]
            simp [h1, h2, h3, h4]
  · simp [h]

/-! ### The class tokens of a mask -/

theorem countScan_pair_MakeMask (x : Nat) (hx : x ≠ 63) (t : Str) :
    countScan [63, x] 0 (MakeMask t)
      = t.countP (fun c => isClass c && decide (classLetter c = x)) := by
  induction t with
  | nil => rfl
  | cons c t ih =>
    rw [MakeMask_cons, maskUnit_eq, List.countP_cons, ← ih]
    cases hc : isClass c
    · have hc63 : c ≠ 63 := not_isClass_ne_63 hc
      have n1 : HasPrefix (c :: MakeMask t) [63, x] = false := HasPrefix_head_ne hc63 _ _
      simp only [Bool.false_eq_true, if_false, List.singleton_append, Bool.false_and]
      rw [countScan_pair_cons x hx, n1]
      simp
    · have e1 := countScan_pair_cons x hx 63 (classLetter c :: MakeMask t)
      have e2 := countScan_pair_cons x hx (classLetter c) (MakeMask t)
      have n2 : HasPrefix (classLetter c :: MakeMask t) [63, x] = false :=
        HasPrefix_head_ne (classLetter_ne_63 c) _ _
      simp only [if_true, List.cons_append, List.nil_append, Bool.true_and]
      rw [e1, e2, n2]
      by_cases hl : classLetter c = x
      · have : HasPrefix (63 :: classLetter c :: MakeMask t) [63, x] = true := by
          simp [HasPrefix, hl, HasPrefix_nil]
        rw [this]
        simp only [if_true, Bool.false_eq_true, if_false, hl, decide_True]
        omega
      · have : HasPrefix (63 :: classLetter c :: MakeMask t) [63, x] = false := by
          simp [HasPrefix, hl]
        rw [this]
        simp [hl]

theorem isSpecial_not_alnum : ∀ c ∈ specialChars,
    isLower c = false ∧ isUpper c = false ∧ isDigit c = false := by
  decide

theorem chr_values : chr 'l' = 108 ∧ chr 'u' = 117 ∧ chr 'd' = 100 ∧ chr 's' = 115 := by
  decide

theorem lower_not_upper {c : Nat} (h : isLower c = true) : isUpper c = false := by
  simp only [isLower, isUpper, decide_eq_true_eq, decide_eq_false_iff_not] at h ⊢
  omega

theorem lower_not_digit {c : Nat} (h : isLower c = true) : isDigit c = false := by
  simp only [isLower, isDigit, decide_eq_true_eq, decide_eq_false_iff_not] at h ⊢
  omega

theorem upper_not_digit {c : Nat} (h : isUpper c = true) : isDigit c = false := by
  simp only [isUpper, isDigit, decide_eq_true_eq, decide_eq_false_iff_not] at h ⊢
  omega

theorem class_lower (c : Nat) :
    (isClass c && decide (classLetter c = chr 'l')) = isLower c := by
  obtain ⟨cl, cu, cd, cs⟩ := chr_values
  unfold isClass classLetter
  rw [cl, cu, cd, cs]
  cases h1 : isLower c <;> cases h2 : isUpper c <;> cases h3 : isDigit c <;> simp

theorem class_upper (c : Nat) :
    (isClass c && decide (classLetter c = chr 'u')) = isUpper c := by
  obtain ⟨cl, cu, cd, cs⟩ := chr_values
  unfold isClass classLetter
  rw [cl, cu, cd, cs]
  cases h1 : isLower c
  · cases h2 : isUpper c <;> cases h3 : isDigit c <;> simp
  · simp [lower_not_upper h1]

theorem class_digit (c : Nat) :
    (isClass c && decide (classLetter c = chr 'd')) = isDigit c := by
  obtain ⟨cl, cu, cd, cs⟩ := chr_values
  unfold isClass classLetter
  rw [cl, cu, cd, cs]
  cases h1 : isLower c
  · cases h2 : isUpper c
    · cases h3 : isDigit c <;> simp
    · simp [upper_not_digit h2]
  · simp [lower_not_digit h1]

theorem class_special (c : Nat) :
    (isClass c && decide (classLetter c = chr 's')) = isSpecial c := by
  obtain ⟨cl, cu, cd, cs⟩ := chr_values
  cases h4 : isSpecial c
  · unfold isClass classLetter
    rw [cl, cu, cd, cs]
    cases h1 : isLower c <;> cases h2 : isUpper c <;> cases h3 : isDigit c <;> simp [h4]
  · have hmem : c ∈ specialChars := by simpa [isSpecial] using h4
    obtain ⟨h1, h2, h3⟩ := isSpecial_not_alnum c hmem
    simp [isClass, classLetter, h1, h2, h3, h4]

/-- C20: for every string `t`, the entropy of its mask is 26 for each upper-case
letter, 26 for each lower-case letter, 10 for each digit and 33 for each
character of the special set; it is 369 for `Hello, World1!`. -/
theorem TestEntropy_MakeMask :
    (∀ t : Str, TestEntropy (MakeMask t) =
      26 * (t.countP isUpper : Int) + 26 * (t.countP isLower : Int)
        + 10 * (t.countP isDigit : Int) + 33 * (t.countP isSpecial : Int)) ∧
    TestEntropy (MakeMask (ascii "Hello, World1!")) = 369 := by
  refine ⟨?_, by decide⟩
  intro t
  rw [TestEntropy_eq, countScan_pair_MakeMask _ (by decide), countScan_pair_MakeMask _ (by decide),
    countScan_pair_MakeMask _ (by decide), countScan_pair_MakeMask _ (by decide)]
  simp only [class_lower, class_upper, class_digit, class_special]
  ring

theorem maskUnit_length (c : Nat) : (maskUnit c).length = 1 + (if isClass c then 1 else 0) := by
  rw [maskUnit_eq]
  split_ifs <;> rfl

/-- C13: the length of `MakeMask t` is the length of `t` plus the number of
characters of `t` that belong to one of the four classes; so it is at least the
length of `t`, with equality exactly when no character of `t` belongs to a
class. -/
theorem MakeMask_length :
    (∀ t : Str, (MakeMask t).length
      = t.length + t.countP (fun c => isLower c || isUpper c || isDigit c || isSpecial c)) ∧
    (∀ t : Str, t.length ≤ (MakeMask t).length) ∧
    (∀ t : Str, (MakeMask t).length = t.length ↔
      ∀ c ∈ t, (isLower c || isUpper c || isDigit c || isSpecial c) = false) := by
  have hlen : ∀ t : Str, (MakeMask t).length
      = t.length + t.countP (fun c => isLower c || isUpper c || isDigit c || isSpecial c) := by
    intro t
    induction t with
    | nil => rfl
    | cons c t ih =>
      rw [MakeMask_cons, List.length_append, ih, maskUnit_length, List.countP_cons,
        List.length_cons]
      have : isClass c = (isLower c || isUpper c || isDigit c || isSpecial c) := rfl
      rw [this]
      split_ifs <;> omega
  refine ⟨hlen, fun t => by rw [hlen]; omega, fun t => ?_⟩
  rw [hlen]
  constructor
  · intro h c hc
    have h0 : t.countP (fun c => isLower c || isUpper c || isDigit c || isSpecial c) = 0 := by
      omega
    rw [List.countP_eq_zero] at h0
    simpa using h0 c hc
  · intro h
    have h0 : t.countP (fun c => isLower c || isUpper c || isDigit c || isSpecial c) = 0 := by
      rw [List.countP_eq_zero]
      intro c hc
      simp [h c hc]
    omega

/-! ### The special class -/

set_option maxRecDepth 100000 in
/-- C14 (the code at the failing input): the literal `specialChars` has 33
entries, but the backslash (byte 92) is written twice and the apostrophe (byte 39) is
missing, so 32
distinct characters are mapped to `?s`, by `MakeMask` and by the special table of
`MakePartialMask` alike; the apostrophe is left as it is, and 94 of the 95
printable ASCII characters belong to a class, while `TestEntropy` gives `?s` the
weight 33. -/
theorem special_class_cardinality :
    MakeMask (ascii "'") = ascii "'" ∧
    MakePartialMask (ascii "'") (ascii "s") = ascii "'" ∧
    specialChars.length = 33 ∧ specialChars.count 92 = 2 ∧ 39 ∉ specialChars ∧ ascii "'" = [39] ∧
    specialChars.dedup.length = 32 ∧
    ((List.range 256).filter (fun c => decide (MakeMask [c] = ascii "?s"))).length = 32 ∧
    ((List.range 256).filter
      (fun c => decide (MakePartialMask [c] (ascii "s") = ascii "?s"))).length = 32 ∧
    ((List.range' 32 95).filter (fun c => decide (MakeMask [c] ≠ [c]))).length = 94 ∧
    TestEntropy (ascii "?s") = 33 := by
  decide

/-! ## `RemoveDuplicateStr` -/

theorem foldl_dedupStep (xs : List Str) :
    ∀ (keys acc : List Str),
      (xs.foldl dedupStep (keys, acc)).2 = acc ++ unseen keys xs := by
  induction xs with
  | nil => intro keys acc; simp [unseen]
  | cons x xs ih =>
    intro keys acc
    rw [List.foldl_cons]
    by_cases h : x ∈ keys
    · have : dedupStep (keys, acc) x = (keys, acc) := by simp [dedupStep, h]
      rw [this, ih, unseen, if_pos h]
    · have : dedupStep (keys, acc) x = (x :: keys, acc ++ [x]) := by simp [dedupStep, h]
      rw [this, ih, unseen, if_neg h]
      simp

theorem unseen_eq_filter (xs : List Str) :
    ∀ seen : List Str,
      unseen seen xs = (firstOccurrences xs).filter (fun y => decide (y ∉ seen)) := by
  induction xs with
  | nil => intro seen; rfl
  | cons x xs ih =>
    intro seen
    rw [unseen, firstOccurrences, List.filter_cons, List.filter_filter]
    by_cases h : x ∈ seen
    · rw [if_pos h, ih]
      simp only [h, not_true_eq_false, decide_False, Bool.false_eq_true, if_false]
      apply List.filter_congr
      intro y _
      by_cases hy : y ∈ seen
      · simp [hy]
      · have : y ≠ x := fun e => hy (e ▸ h)
        simp [hy, this]
    · rw [if_neg h, ih]
      simp only [h, not_false_eq_true, decide_True, if_true]
      congr 1
      apply List.filter_congr
      intro y _
      simp only [List.mem_cons, not_or, ne_eq, decide_not, Bool.decide_and]
      exact Bool.and_comm _ _

theorem RemoveDuplicateStr_eq (xs : List Str) : RemoveDuplicateStr xs = firstOccurrences xs := by
  unfold RemoveDuplicateStr
  rw [foldl_dedupStep, unseen_eq_filter]
  simp

theorem mem_firstOccurrences (xs : List Str) (y : Str) : y ∈ firstOccurrences xs ↔ y ∈ xs := by
  induction xs with
  | nil => simp [firstOccurrences]
  | cons x xs ih =>
    rw [firstOccurrences, List.mem_cons, List.mem_cons, List.mem_filter, ih]
    by_cases h : y = x
    · simp [h]
    · simp [h]

theorem nodup_firstOccurrences (xs : List Str) : (firstOccurrences xs).Nodup := by
  induction xs with
  | nil => simp [firstOccurrences]
  | cons x xs ih =>
    rw [firstOccurrences, List.nodup_cons]
    exact ⟨by simp [List.mem_filter], ih.filter _⟩

theorem sublist_firstOccurrences (xs : List Str) : (firstOccurrences xs).Sublist xs := by
  induction xs with
  | nil => simp [firstOccurrences]
  | cons x xs ih =>
    rw [firstOccurrences]
    exact List.Sublist.cons₂ x ((List.filter_sublist _).trans ih)

/-- C19: `RemoveDuplicateStr xs` is the list of the distinct elements of `xs` in
the order of their first occurrence: it has no element twice, it has the members
of `xs`, and it is a subsequence of `xs`; `Hello, World, Hello, World` gives
`Hello, World`. -/
theorem RemoveDuplicateStr_spec :
    (∀ xs : List Str, RemoveDuplicateStr xs = firstOccurrences xs ∧
      (RemoveDuplicateStr xs).Nodup ∧ (∀ y, y ∈ RemoveDuplicateStr xs ↔ y ∈ xs) ∧
      (RemoveDuplicateStr xs).Sublist xs) ∧
    RemoveDuplicateStr [ascii "Hello", ascii "World", ascii "Hello", ascii "World"]
      = [ascii "Hello", ascii "World"] := by
  refine ⟨fun xs => ?_, by decide⟩
  rw [RemoveDuplicateStr_eq]
  exact ⟨rfl, nodup_firstOccurrences xs, mem_firstOccurrences xs, sublist_firstOccurrences xs⟩

/-! ## `ReplaceWord`: empty token, self-substitution, length of the result -/

/-! ### The collapsing passes on any string -/

theorem replaceScan_pair_cons (x : Nat) (c : Nat) (s : Str) :
    replaceScan [63, x] [63] 0 (c :: s)
      = if HasPrefix (c :: s) [63, x] then 63 :: replaceScan [63, x] [63] 0 s.tail
        else c :: replaceScan [63, x] [63] 0 s := by
  by_cases h : HasPrefix (c :: s) [63, x] = true
  · rw [if_pos h, replaceScan, if_pos h, replaceScan_skip]
    cases s <;> simp
  · rw [if_neg h, replaceScan, if_neg h]

theorem HasPrefix_pair (x c : Nat) (s : Str) :
    HasPrefix (c :: s) [63, x] = true ↔ c = 63 ∧ s.head? = some x := by
  rw [HasPrefix_cons_cons, Bool.and_eq_true, HasPrefix_singleton]
  simp

/-- A collapsing pass removes one byte for each occurrence of the token. -/
theorem replaceScan_pair_length (x : Nat) (hx : x ≠ 63) :
    ∀ (n : Nat) (s : Str), s.length ≤ n →
      (replaceScan [63, x] [63] 0 s).length + countScan [63, x] 0 s = s.length := by
  intro n
  induction n with
  | zero =>
    intro s hs
    have : s = [] := List.length_eq_zero.1 (Nat.le_zero.1 hs)
    subst this
    rfl
  | succ n ih =>
    intro s hs
    cases s with
    | nil => rfl
    | cons c s =>
      rw [replaceScan_pair_cons x, countScan_pair_cons x hx]
      by_cases h : HasPrefix (c :: s) [63, x] = true
      · rw [if_pos h, if_pos h]
        obtain ⟨-, hh⟩ := (HasPrefix_pair x c s).1 h
        cases s with
        | nil => simp at hh
        | cons d rest =>
          have hd : d = x := by simpa using hh
          subst hd
          have e2 := countScan_pair_cons d hx d rest
          rw [if_neg (by simp [HasPrefix_head_ne hx])] at e2
          have := ih rest (by simp at hs; omega)
          simp only [List.tail_cons, List.length_cons]
          omega
      · rw [if_neg h, if_neg h]
        have := ih s (by simpa using hs)
        simp only [List.length_cons]
        omega

theorem replaceScan_pair_head (x : Nat) (s : Str) :
    (replaceScan [63, x] [63] 0 s).head? = s.head? := by
  cases s with
  | nil => rfl
  | cons c s =>
    rw [replaceScan_pair_cons x]
    split_ifs with h
    · obtain ⟨hc, -⟩ := (HasPrefix_pair x c s).1 h
      simp [hc]
    · rfl

/-- A pass that collapses `?y` loses no occurrence of another token `?x`. -/
theorem countScan_replaceScan_le (x y : Nat) (hx : x ≠ 63) (hy : y ≠ 63) (hxy : x ≠ y) :
    ∀ (n : Nat) (s : Str), s.length ≤ n →
      countScan [63, x] 0 s ≤ countScan [63, x] 0 (replaceScan [63, y] [63] 0 s) := by
  intro n
  induction n with
  | zero =>
    intro s hs
    have : s = [] := List.length_eq_zero.1 (Nat.le_zero.1 hs)
    subst this
    exact le_refl _
  | succ n ih =>
    intro s hs
    cases s with
    | nil => exact le_refl _
    | cons c s =>
      rw [replaceScan_pair_cons y]
      by_cases h : HasPrefix (c :: s) [63, y] = true
      · rw [if_pos h]
        obtain ⟨hc, hh⟩ := (HasPrefix_pair y c s).1 h
        cases s with
        | nil => simp at hh
        | cons d rest =>
          have hd : d = y := by simpa using hh
          subst hd hc
          have e1 := countScan_pair_cons x hx 63 (d :: rest)
          have n1 : ¬ (HasPrefix (63 :: d :: rest) [63, x] = true) := by
            rw [HasPrefix_pair]
            simp [Ne.symm hxy]
          rw [if_neg n1] at e1
          have e2 := countScan_pair_cons x hx d rest
          rw [if_neg (by simp [HasPrefix_head_ne hy])] at e2
          have e3 := countScan_pair_cons x hx 63 (replaceScan [63, d] [63] 0 rest)
          have := ih rest (by simp at hs; omega)
          simp only [List.tail_cons]
          omega
      · rw [if_neg h]
        have e1 := countScan_pair_cons x hx c s
        have e3 := countScan_pair_cons x hx c (replaceScan [63, y] [63] 0 s)
        have hpre : HasPrefix (c :: replaceScan [63, y] [63] 0 s) [63, x]
            = HasPrefix (c :: s) [63, x] := by
          have a1 := HasPrefix_pair x c (replaceScan [63, y] [63] 0 s)
          have a2 := HasPrefix_pair x c s
          rw [replaceScan_pair_head y] at a1
          cases h1 : HasPrefix (c :: replaceScan [63, y] [63] 0 s) [63, x] <;>
            cases h2 : HasPrefix (c :: s) [63, x] <;> simp_all
        rw [hpre] at e3
        have := ih s (by simpa using hs)
        omega

theorem mem_replaceScan_pair (x : Nat) :
    ∀ (n : Nat) (s : Str), s.length ≤ n → ∀ b ∈ replaceScan [63, x] [63] 0 s, b ∈ s := by
  intro n
  induction n with
  | zero =>
    intro s hs
    have : s = [] := List.length_eq_zero.1 (Nat.le_zero.1 hs)
    subst this
    intro b hb
    exact hb
  | succ n ih =>
    intro s hs b hb
    cases s with
    | nil => exact hb
    | cons c s =>
      rw [replaceScan_pair_cons x] at hb
      by_cases h : HasPrefix (c :: s) [63, x] = true
      · rw [if_pos h] at hb
        obtain ⟨hc, -⟩ := (HasPrefix_pair x c s).1 h
        rcases List.mem_cons.1 hb with hb | hb
        · simp [hb, hc]
        · have := ih s.tail (by
            have := List.length_tail s
            simp at hs
            omega) b hb
          exact List.mem_cons_of_mem _ (List.mem_of_mem_tail this)
      · rw [if_neg h] at hb
        rcases List.mem_cons.1 hb with hb | hb
        · simp [hb]
        · exact List.mem_cons_of_mem _ (ih s (by simpa using hs) b hb)

theorem isASCII_replaceScan_pair (x : Nat) (s : Str) (hs : isASCII s = true) :
    isASCII (replaceScan [63, x] [63] 0 s) = true := by
  rw [isASCII_iff] at hs ⊢
  intro b hb
  exact hs b (mem_replaceScan_pair x s.length s (le_refl _) b hb)

/-- A collapsing pass leaves the string as it is, or makes it shorter. -/
theorem replaceScan_pair_eq_or_lt (x : Nat) (hx : x ≠ 63) :
    ∀ (n : Nat) (s : Str), s.length ≤ n →
      replaceScan [63, x] [63] 0 s = s ∨ (replaceScan [63, x] [63] 0 s).length < s.length := by
  intro n
  induction n with
  | zero =>
    intro s hs
    have : s = [] := List.length_eq_zero.1 (Nat.le_zero.1 hs)
    subst this
    exact Or.inl rfl
  | succ n ih =>
    intro s hs
    cases s with
    | nil => exact Or.inl rfl
    | cons c s =>
      have hl := replaceScan_pair_length x hx _ (c :: s) (le_refl _)
      by_cases h : HasPrefix (c :: s) [63, x] = true
      · right
        have e := countScan_pair_cons x hx c s
        rw [if_pos h] at e
        omega
      · rw [replaceScan_pair_cons x, if_neg h]
        rcases ih s (by simpa using hs) with h1 | h1
        · left; rw [h1]
        · right; simpa using h1

theorem collapseAll_eq (s : Str) :
    collapseAll s = replaceScan [63, chr 's'] [63] 0 (replaceScan [63, chr 'd'] [63] 0
      (replaceScan [63, chr 'l'] [63] 0 (replaceScan [63, chr 'u'] [63] 0 s))) := by
  have e1 : ascii "?u" = [63, chr 'u'] := by decide
  have e2 : ascii "?l" = [63, chr 'l'] := by decide
  have e3 : ascii "?d" = [63, chr 'd'] := by decide
  have e4 : ascii "?s" = [63, chr 's'] := by decide
  have e5 : ascii "?" = [63] := by decide
  rw [collapseAll, e1, e2, e3, e4, e5, ReplaceAll_collapse, ReplaceAll_collapse,
    ReplaceAll_collapse, ReplaceAll_collapse]

theorem isASCII_collapseAll (s : Str) (hs : isASCII s = true) : isASCII (collapseAll s) = true := by
  rw [collapseAll_eq]
  exact isASCII_replaceScan_pair _ _ (isASCII_replaceScan_pair _ _
    (isASCII_replaceScan_pair _ _ (isASCII_replaceScan_pair _ _ hs)))

theorem collapseAll_eq_or_lt (s : Str) :
    collapseAll s = s ∨ (collapseAll s).length < s.length := by
  rw [collapseAll_eq]
  have le : ∀ (x : Nat) (hx : x ≠ 63) (t : Str), (replaceScan [63, x] [63] 0 t).length ≤ t.length := by
    intro x hx t
    have := replaceScan_pair_length x hx _ t (le_refl _)
    omega
  rcases replaceScan_pair_eq_or_lt (chr 'u') (by decide) _ s (le_refl _) with h1 | h1
  · rw [h1]
    rcases replaceScan_pair_eq_or_lt (chr 'l') (by decide) _ s (le_refl _) with h2 | h2
    · rw [h2]
      rcases replaceScan_pair_eq_or_lt (chr 'd') (by decide) _ s (le_refl _) with h3 | h3
      · rw [h3]
        exact replaceScan_pair_eq_or_lt (chr 's') (by decide) _ s (le_refl _)
      · right
        exact lt_of_le_of_lt (le _ (by decide) _) h3
    · right
      exact lt_of_le_of_lt (le _ (by decide) _) (lt_of_le_of_lt (le _ (by decide) _) h2)
  · right
    exact lt_of_le_of_lt (le _ (by decide) _) (lt_of_le_of_lt (le _ (by decide) _)
      (lt_of_le_of_lt (le _ (by decide) _) h1))

/-- The four passes remove at least one byte for each class token of the string
they start from. -/
theorem collapseAll_length (s : Str) :
    (collapseAll s).length + (countScan [63, chr 'u'] 0 s + countScan [63, chr 'l'] 0 s
      + countScan [63, chr 'd'] 0 s + countScan [63, chr 's'] 0 s) ≤ s.length := by
  rw [collapseAll_eq]
  have hu : chr 'u' ≠ 63 := by decide
  have hl : chr 'l' ≠ 63 := by decide
  have hd : chr 'd' ≠ 63 := by decide
  have hs : chr 's' ≠ 63 := by decide
  have l1 := replaceScan_pair_length _ hu _ s (le_refl _)
  have l2 := replaceScan_pair_length _ hl _ (replaceScan [63, chr 'u'] [63] 0 s) (le_refl _)
  have l3 := replaceScan_pair_length _ hd _
    (replaceScan [63, chr 'l'] [63] 0 (replaceScan [63, chr 'u'] [63] 0 s)) (le_refl _)
  have l4 := replaceScan_pair_length _ hs _ (replaceScan [63, chr 'd'] [63] 0
    (replaceScan [63, chr 'l'] [63] 0 (replaceScan [63, chr 'u'] [63] 0 s))) (le_refl _)
  have m1 := countScan_replaceScan_le (chr 'l') (chr 'u') hl hu (by decide) _ s (le_refl _)
  have m2 := countScan_replaceScan_le (chr 'd') (chr 'u') hd hu (by decide) _ s (le_refl _)
  have m3 := countScan_replaceScan_le (chr 's') (chr 'u') hs hu (by decide) _ s (le_refl _)
  have m4 := countScan_replaceScan_le (chr 'd') (chr 'l') hd hl (by decide) _
    (replaceScan [63, chr 'u'] [63] 0 s) (le_refl _)
  have m5 := countScan_replaceScan_le (chr 's') (chr 'l') hs hl (by decide) _
    (replaceScan [63, chr 'u'] [63] 0 s) (le_refl _)
  have m6 := countScan_replaceScan_le (chr 's') (chr 'd') hs hd (by decide) _
    (replaceScan [63, chr 'l'] [63] 0 (replaceScan [63, chr 'u'] [63] 0 s)) (le_refl _)
  omega

/-! ### The restoring loop on any string -/

theorem restoreSpec_length (w nw : Str) : (restoreSpec w nw).length = nw.length := by
  induction w generalizing nw with
  | nil => cases nw <;> rfl
  | cons c w ih =>
    cases nw with
    | nil => rfl
    | cons x nw => simp [restoreSpec_cons_cons, ih]

theorem restoreSpec_self (s : Str) : restoreSpec s s = s := by
  induction s with
  | nil => rfl
  | cons c s ih =>
    rw [restoreSpec_cons_cons, ih]
    split_ifs with h
    · rfl
    · rfl

theorem HasPrefix_length (s p : Str) (h : HasPrefix s p = true) : p.length ≤ s.length := by
  obtain ⟨t, rfl⟩ := (HasPrefix_iff s p).1 h
  simp

theorem Contains_length (s p : Str) (h : Contains s p = true) : p.length ≤ s.length := by
  induction s with
  | nil =>
    have := HasPrefix_length [] p (by simpa [Contains] using h)
    simpa using this
  | cons c s ih =>
    rw [Contains, Bool.or_eq_true] at h
    rcases h with h | h
    · exact HasPrefix_length _ _ h
    · have := ih h
      simp
      omega

theorem mem_of_Contains (s p : Str) (h : Contains s p = true) : ∀ b ∈ p, b ∈ s := by
  induction s with
  | nil =>
    have h' : HasPrefix [] p = true := by simpa [Contains] using h
    obtain ⟨t, ht⟩ := (HasPrefix_iff [] p).1 h'
    have : p = [] := (List.append_eq_nil.1 ht.symm).1
    subst this
    simp
  | cons c s ih =>
    rw [Contains, Bool.or_eq_true] at h
    intro b hb
    rcases h with h | h
    · obtain ⟨t, ht⟩ := (HasPrefix_iff _ p).1 h
      rw [ht]
      exact List.mem_append_left _ hb
    · exact List.mem_cons_of_mem _ (ih h b hb)

theorem Contains_self (s : Str) : Contains s s = true :=
  Contains_of_HasPrefix s s (by simpa using HasPrefix_append s [])

theorem runes_ne_nil (s : Str) (hs : s ≠ []) : runes s ≠ [] := by
  cases s with
  | nil => exact absurd rfl hs
  | cons c s => simp [runes, runesAux]

theorem encodeRune_ne_nil (r : Nat) : encodeRune r ≠ [] := by
  unfold encodeRune
  split_ifs <;> simp

theorem runesToString_ne_nil (rs : List Nat) (h : rs ≠ []) : runesToString rs ≠ [] := by
  cases rs with
  | nil => exact absurd rfl h
  | cons r rs =>
    unfold runesToString
    simp [encodeRune_ne_nil]

/-- Inside its bounds `ReplaceAtIndex` returns, and returns a non-empty string. -/
theorem ReplaceAtIndex_some (s : Str) (r i : Nat) (hi : i < s.length) :
    ∃ t, ReplaceAtIndex s r (i : Int) = some t ∧ t ≠ [] := by
  have hs : s ≠ [] := by
    intro h
    simp [h] at hi
  have hr := runes_ne_nil s hs
  unfold ReplaceAtIndex
  have h1 : ¬ ((i : Int) < 0 ∨ (i : Int) ≥ (s.length : Int)) := by omega
  rw [if_neg h1]
  simp only
  split_ifs
  · exact ⟨_, rfl, runesToString_ne_nil _ (by simpa using hr)⟩
  · exact ⟨_, rfl, runesToString_ne_nil _ (by simpa using hr)⟩
  · exact ⟨_, rfl, runesToString_ne_nil _ hr⟩

theorem restoreStep_some (w nw : Str) (i : Nat) :
    ∃ t, restoreStep w (some nw) i = some t ∧ (t = [] ↔ nw = []) := by
  simp only [restoreStep]
  by_cases h1 : i < nw.length
  · rw [if_pos h1]
    by_cases h2 : nw.getD i 0 = 63
    · rw [if_pos h2]
      obtain ⟨t, ht, hne⟩ := ReplaceAtIndex_some nw (w.getD i 0) i h1
      have hnw : nw ≠ [] := by
        intro h
        simp [h] at h1
      exact ⟨t, ht, by simp [hne, hnw]⟩
    · rw [if_neg h2]
      exact ⟨nw, rfl, Iff.rfl⟩
  · rw [if_neg h1]
    exact ⟨nw, rfl, Iff.rfl⟩

/-- The restoring loop never leaves the process, and keeps a non-empty working
string non-empty. -/
theorem restore_some (w : Str) (idx : List Nat) :
    ∀ nw : Str, ∃ t, idx.foldl (restoreStep w) (some nw) = some t ∧ (t = [] ↔ nw = []) := by
  induction idx with
  | nil => intro nw; exact ⟨nw, rfl, Iff.rfl⟩
  | cons i idx ih =>
    intro nw
    obtain ⟨t, ht, he⟩ := restoreStep_some w nw i
    obtain ⟨t', ht', he'⟩ := ih t
    exact ⟨t', by rw [List.foldl_cons, ht, ht'], he'.trans he⟩

theorem replaceScan_pair_eq_nil (x : Nat) (s : Str) :
    replaceScan [63, x] [63] 0 s = [] ↔ s = [] := by
  have := replaceScan_pair_head x s
  constructor
  · intro h
    rw [h] at this
    cases s with
    | nil => rfl
    | cons c s => simp at this
  · intro h
    subst h
    rfl

theorem collapseAll_eq_nil (s : Str) : collapseAll s = [] ↔ s = [] := by
  rw [collapseAll_eq, replaceScan_pair_eq_nil, replaceScan_pair_eq_nil,
    replaceScan_pair_eq_nil, replaceScan_pair_eq_nil]

theorem ReplaceWord_unfold (w m v : Str) :
    ReplaceWord w m v =
      if Contains m (MakeMask v) then
        match (rangeIndices w).foldl (restoreStep w)
            (some (collapseAll (Replace m (MakeMask v) v))) with
        | none => none
        | some newword =>
          if Contains newword v && newword != v then some newword else some []
      else some [] := rfl

/-- C15 as stated fails: with the empty token, subject `a` and mask `?l`,
`ReplaceWord` returns `a`, not the empty string. -/
theorem ReplaceWord_empty_token_counterexample :
    ReplaceWord (ascii "a") (ascii "?l") [] = some (ascii "a") ∧ ascii "a" ≠ [] := by
  decide

/-- With the empty token `ReplaceWord` returns what its restoring loop leaves of
the mask with the class tokens collapsed. -/
theorem ReplaceWord_nil_token (w m : Str) :
    ∃ r, ReplaceWord w m [] = some r ∧
      (rangeIndices w).foldl (restoreStep w) (some (collapseAll m)) = some r ∧
      (r = [] ↔ m = []) := by
  rw [ReplaceWord_unfold]
  have h0 : MakeMask [] = [] := rfl
  have hrep : Replace m [] [] = m := by simp [Replace]
  rw [h0, Contains_nil_right, if_pos rfl, hrep]
  obtain ⟨t, ht, he⟩ := restore_some w (rangeIndices w) (collapseAll m)
  rw [ht]
  refine ⟨t, ?_, rfl, he.trans (collapseAll_eq_nil m)⟩
  simp only [Contains_nil_right, Bool.true_and]
  cases t with
  | nil => rfl
  | cons c t => simp

/-- C15, amended: for every subject and every mask, `ReplaceWord` with the empty
token returns without leaving the process; its result is what the restoring loop
leaves of the mask with the class tokens collapsed, and it is the empty string
exactly when the mask is empty. For an ASCII subject and an ASCII mask the result
is the collapsed mask in which every `?` at an index below the length of the
subject has taken the character of the subject at that index; for an ASCII
subject and its own mask it is the subject itself. -/
theorem ReplaceWord_empty_token_result :
    (∀ w m : Str, ∃ r, ReplaceWord w m [] = some r ∧
      (rangeIndices w).foldl (restoreStep w) (some (collapseAll m)) = some r ∧
      (r = [] ↔ m = [])) ∧
    (∀ w m : Str, isASCII w = true → isASCII m = true →
      ReplaceWord w m [] = some (restoreSpec w (collapseAll m))) ∧
    (∀ w : Str, isASCII w = true → ReplaceWord w (MakeMask w) [] = some w) := by
  refine ⟨ReplaceWord_nil_token, ?_, ReplaceWord_empty_token⟩
  intro w m hw hm
  obtain ⟨r, h1, h2, _⟩ := ReplaceWord_nil_token w m
  rw [restore_ascii w (collapseAll m) hw (isASCII_collapseAll m hm)] at h2
  rw [h1, ← h2]

/-- C17: for every ASCII string `s`, `ReplaceWord` on `s`, its own mask and the
token `s` returns the empty string: the substitution gives `s`, which the
collapsing passes either shorten, so that it no longer holds `s`, or leave as it
is, so that it is rejected as equal to the token. -/
theorem ReplaceWord_self (s : Str) (hs : isASCII s = true) :
    ReplaceWord s (MakeMask s) s = some [] := by
  rw [ReplaceWord_unfold, Contains_self, if_pos rfl]
  have hrep : Replace (MakeMask s) (MakeMask s) s = s := by
    unfold Replace
    by_cases h : MakeMask s = s
    · rw [if_pos h, h]
    · rw [if_neg h]
      by_cases h0 : MakeMask s = []
      · have : s = [] := MakeMask_eq_nil h0
        subst this
        exact absurd rfl h
      · rw [if_neg h0]
        have := replaceScan_match (MakeMask s) s [] h0
        rw [List.append_nil] at this
        rw [this]
        simp [replaceScan]
  rw [hrep, restore_ascii s _ hs (isASCII_collapseAll s hs)]
  simp only
  rcases collapseAll_eq_or_lt s with h | h
  · rw [h, restoreSpec_self]
    simp
  · have hc : Contains (restoreSpec s (collapseAll s)) s = false := by
      cases hcon : Contains (restoreSpec s (collapseAll s)) s
      · rfl
      · have := Contains_length _ _ hcon
        rw [restoreSpec_length] at this
        omega
    rw [hc]
    rfl

theorem ReplaceWord_self_witness :
    ReplaceWord (ascii "Hello") (MakeMask (ascii "Hello")) (ascii "Hello") = some [] :=
  ReplaceWord_self (ascii "Hello") (by decide)

/-! ### The length of the result -/

theorem countScan_pair_of_ne (x : Nat) (hx : x ≠ 63) (c : Nat) (hc : c ≠ 63) (r : Str) :
    countScan [63, x] 0 (c :: r) = countScan [63, x] 0 r := by
  rw [countScan_pair_cons x hx, if_neg (by simp [HasPrefix_head_ne hc]), Nat.zero_add]

theorem countScan_pair_unit (x : Nat) (hx : x ≠ 63) (y : Nat) (hy : y ≠ 63) (r : Str) :
    countScan [63, x] 0 (63 :: y :: r) = (if y = x then 1 else 0) + countScan [63, x] 0 r := by
  rw [countScan_pair_cons x hx, countScan_pair_of_ne x hx y hy]
  congr 1
  by_cases h : y = x
  · rw [if_pos h, if_pos ((HasPrefix_pair x 63 (y :: r)).2 ⟨rfl, by simp [h]⟩)]
  · rw [if_neg h, if_neg (fun hh => h (by simpa using ((HasPrefix_pair x 63 (y :: r)).1 hh).2))]

theorem tokenCount_of_ne (c : Nat) (hc : c ≠ 63) (r : Str) :
    tokenCount (c :: r) = tokenCount r := by
  unfold tokenCount
  rw [countScan_pair_of_ne _ (by decide) c hc, countScan_pair_of_ne _ (by decide) c hc,
    countScan_pair_of_ne _ (by decide) c hc, countScan_pair_of_ne _ (by decide) c hc]

theorem tokenCount_append_no63 (a r : Str) (ha : 63 ∉ a) :
    tokenCount (a ++ r) = tokenCount r := by
  induction a with
  | nil => rfl
  | cons c a ih =>
    have hc : c ≠ 63 := fun h => ha (by simp [h])
    have ha' : 63 ∉ a := fun h => ha (List.mem_cons_of_mem _ h)
    rw [List.cons_append, tokenCount_of_ne c hc, ih ha']

theorem tokenCount_unit (c : Nat) (r : Str) :
    tokenCount (63 :: classLetter c :: r) = 1 + tokenCount r := by
  unfold tokenCount
  have h63 := classLetter_ne_63 c
  rw [countScan_pair_unit _ (by decide) _ h63, countScan_pair_unit _ (by decide) _ h63,
    countScan_pair_unit _ (by decide) _ h63, countScan_pair_unit _ (by decide) _ h63]
  obtain ⟨cl, cu, cd, cs⟩ := chr_values
  rw [cl, cu, cd, cs]
  have hm := classLetter_mem_allLetters c
  simp only [allLetters, cl, cu, cd, cs, List.mem_cons, List.mem_singleton, List.not_mem_nil,
    or_false] at hm
  rcases hm with h | h | h | h <;> rw [h] <;> simp <;> omega

theorem collapsedUnit_nil (c : Nat) :
    collapsedUnit [] c = if isClass c then [63, classLetter c] else [c] := by
  simp [collapsedUnit]

/-- After the substitution the working string has one byte for each character
of the subject and one more for each class token left in it. -/
theorem render_nil_length (v : Str) (hv : v ≠ []) (hq : 63 ∉ v) :
    ∀ (n : Nat) (w : Str), w.length ≤ n →
      (render [] v (pieces v 0 w)).length
        = w.length + tokenCount (render [] v (pieces v 0 w)) := by
  intro n
  induction n with
  | zero =>
    intro w hw
    have : w = [] := List.length_eq_zero.1 (Nat.le_zero.1 hw)
    subst this
    rfl
  | succ n ih =>
    intro w hw
    cases w with
    | nil => rfl
    | cons c w =>
      rcases subject_cases v c w with ⟨h, a, w', hsplit, hlen, -⟩ | h
      · have hw' : w'.length ≤ n := by
          have := congrArg List.length hsplit
          have hvpos : 0 < v.length := List.length_pos.2 hv
          simp at this hw
          omega
        rw [hsplit] at h ⊢
        rw [pieces_match v a w' hv hlen h, render, tokenCount_append_no63 v _ hq,
          List.length_append, List.length_append, ih w' hw', hlen]
        omega
      · rw [pieces_nomatch v c w h, render, collapsedUnit_nil]
        have := ih w (by simpa using hw)
        cases hc : isClass c
        · have hc63 := not_isClass_ne_63 hc
          simp only [Bool.false_eq_true, if_false, List.singleton_append, List.length_cons]
          rw [tokenCount_of_ne c hc63]
          omega
        · simp only [if_true, List.cons_append, List.nil_append, List.length_cons]
          rw [tokenCount_unit]
          omega

theorem isASCII_render_nil (v : Str) (hv : v ≠ []) (hva : isASCII v = true) :
    ∀ (n : Nat) (w : Str), w.length ≤ n → isASCII w = true →
      isASCII (render [] v (pieces v 0 w)) = true := by
  intro n
  induction n with
  | zero =>
    intro w hw _
    have : w = [] := List.length_eq_zero.1 (Nat.le_zero.1 hw)
    subst this
    rfl
  | succ n ih =>
    intro w hw hwa
    cases w with
    | nil => rfl
    | cons c w =>
      rcases subject_cases v c w with ⟨h, a, w', hsplit, hlen, -⟩ | h
      · have hw' : w'.length ≤ n := by
          have := congrArg List.length hsplit
          have hvpos : 0 < v.length := List.length_pos.2 hv
          simp at this hw
          omega
        rw [hsplit] at h hwa ⊢
        rw [pieces_match v a w' hv hlen h, render, isASCII_append]
        exact ⟨hva, ih w' hw' ((isASCII_append _ _).1 hwa).2⟩
      · obtain ⟨hc, hwa'⟩ := (isASCII_cons c w).1 hwa
        rw [pieces_nomatch v c w h, render, collapsedUnit_nil, isASCII_append]
        refine ⟨?_, ih w (by simpa using hw) hwa'⟩
        split_ifs
        · have h1 := classLetter_mem_allLetters c
          have h2 : ∀ b ∈ allLetters, b < 128 := by decide
          simp [isASCII, h2 _ h1]
        · simp [isASCII, hc]

theorem isASCII_MakeMask (w : Str) (hw : isASCII w = true) : isASCII (MakeMask w) = true := by
  induction w with
  | nil => rfl
  | cons c w ih =>
    obtain ⟨hc, hw'⟩ := (isASCII_cons c w).1 hw
    rw [MakeMask_cons, isASCII_append, maskUnit_eq]
    refine ⟨?_, ih hw'⟩
    split_ifs
    · have h1 := classLetter_mem_allLetters c
      have h2 : ∀ b ∈ allLetters, b < 128 := by decide
      simp [isASCII, h2 _ h1]
    · simp [isASCII, hc]

theorem mem_MakeMask_of_not_isClass (v : Str) (b : Nat) (hb : b ∈ v) (hc : isClass b = false) :
    b ∈ MakeMask v := by
  induction v with
  | nil => simp at hb
  | cons c v ih =>
    rw [MakeMask_cons]
    rcases List.mem_cons.1 hb with h | h
    · subst h
      rw [maskUnit_eq, hc]
      simp
    · exact List.mem_append_right _ (ih h)

/-- A token whose mask occurs in the mask of an ASCII subject is ASCII. -/
theorem isASCII_of_Contains_MakeMask (w v : Str) (hw : isASCII w = true)
    (h : Contains (MakeMask w) (MakeMask v) = true) : isASCII v = true := by
  rw [isASCII_iff]
  intro b hb
  cases hc : isClass b
  · have h1 := mem_MakeMask_of_not_isClass v b hb hc
    have h2 := mem_of_Contains _ _ h b h1
    exact (isASCII_iff _).1 (isASCII_MakeMask w hw) b h2
  · have : b < 127 := by
      unfold isClass at hc
      simp only [Bool.or_eq_true] at hc
      rcases hc with ((h | h) | h) | h
      · simp only [isLower, decide_eq_true_eq] at h; omega
      · simp only [isUpper, decide_eq_true_eq] at h; omega
      · simp only [isDigit, decide_eq_true_eq] at h; omega
      · exact isSpecial_lt h
    omega

/-- On an ASCII subject and its own mask, `ReplaceWord` returns, and its result
is not longer than the subject, for every token without `?`. -/
theorem ReplaceWord_length_le (w v : Str) (hw : isASCII w = true) (hq : 63 ∉ v) :
    ∃ r, ReplaceWord w (MakeMask w) v = some r ∧ r.length ≤ w.length := by
  by_cases hv : v = []
  · subst hv
    exact ⟨w, ReplaceWord_empty_token w hw, le_refl _⟩
  · cases hocc : Contains (MakeMask w) (MakeMask v)
    · refine ⟨[], ?_, Nat.zero_le _⟩
      rw [ReplaceWord_unfold, hocc]
      rfl
    · have hva := isASCII_of_Contains_MakeMask w v hw hocc
      have hR := isASCII_render_nil v hv hva w.length w (le_refl _) hw
      have hlen := render_nil_length v hv hq w.length w (le_refl _)
      have hcol := collapseAll_length (render [] v (pieces v 0 w))
      have hK : (collapseAll (render [] v (pieces v 0 w))).length ≤ w.length := by
        unfold tokenCount at hlen
        omega
      rw [ReplaceWord_unfold, hocc, if_pos rfl, Replace_MakeMask v w hv,
        restore_ascii w _ hw (isASCII_collapseAll _ hR)]
      simp only
      split_ifs
      · exact ⟨_, rfl, by rw [restoreSpec_length]; exact hK⟩
      · exact ⟨_, rfl, Nat.zero_le _⟩

set_option maxRecDepth 100000 in
/-- C16 as stated fails: with subject `ab`, the longer mask `?l?l?d` and token
`b` the result is `bb?`, with a `?` at index 2, the length of the subject; and
with the subject of bytes 255, `a`, `a`, `B`, its own mask and token `B`, the
result has a `?` at index 4. -/
theorem ReplaceWord_trailing_marker_counterexample :
    chr '?' ∉ ascii "b" ∧
    ReplaceWord (ascii "ab") (ascii "?l?l?d") (ascii "b") = some (ascii "bb?") ∧
    (ascii "bb?")[2]? = some (chr '?') ∧ (ascii "ab").length ≤ 2 ∧
    chr '?' ∉ ascii "B" ∧
    ReplaceWord [255, 97, 97, 66] (MakeMask [255, 97, 97, 66]) (ascii "B")
      = some [239, 191, 189, 97, 63, 66] ∧
    [239, 191, 189, 97, 63, 66][4]? = some (chr '?') ∧ [255, 97, 97, 66].length ≤ 4 := by
  decide

/-- C16, amended: for every ASCII subject `w` with its own mask and every token
that contains no `?`, `ReplaceWord` returns a result that is not longer than `w`,
so the result has no `?`, and no other character, at an index at or beyond the
length of `w`. -/
theorem ReplaceWord_no_trailing_marker (w v : Str) (hw : isASCII w = true)
    (hq : chr '?' ∉ v) :
    ∃ r, ReplaceWord w (MakeMask w) v = some r ∧ r.length ≤ w.length ∧
      ∀ i, w.length ≤ i → r[i]? ≠ some (chr '?') := by
  obtain ⟨r, hr, hlen⟩ := ReplaceWord_length_le w v hw hq
  refine ⟨r, hr, hlen, fun i hi => ?_⟩
  rw [List.getElem?_eq_none (by omega)]
  simp

/-- C16, amended, at subject `Hello Jello` and token `Hello`. -/
theorem ReplaceWord_no_trailing_marker_witness :
    ∃ r, ReplaceWord (ascii "Hello Jello") (MakeMask (ascii "Hello Jello")) (ascii "Hello")
      = some r ∧ r.length ≤ (ascii "Hello Jello").length ∧
      ∀ i, (ascii "Hello Jello").length ≤ i → r[i]? ≠ some (chr '?') :=
  ReplaceWord_no_trailing_marker (ascii "Hello Jello") (ascii "Hello") (by decide) (by decide)

/-! ## `ReplaceWord`: the class pattern of the result -/

/-- Writing the token over the occurrences of its class pattern leaves the mask
of the subject as it is. -/
theorem MakeMask_substituteAll (v : Str) (hv : v ≠ []) :
    ∀ (n : Nat) (w : Str), w.length ≤ n →
      MakeMask (substituteAll v 0 w) = MakeMask w := by
  intro n
  induction n with
  | zero =>
    intro w hw
    have : w = [] := List.length_eq_zero.1 (Nat.le_zero.1 hw)
    subst this
    rfl
  | succ n ih =>
    intro w hw
    cases w with
    | nil => rfl
    | cons c w =>
      rcases subject_cases v c w with ⟨h, a, w', hsplit, hlen, hmask⟩ | h
      · have hw' : w'.length ≤ n := by
          have := congrArg List.length hsplit
          have hvpos : 0 < v.length := List.length_pos.2 hv
          simp at this hw
          omega
        rw [hsplit] at h ⊢
        rw [substituteAll_match v a w' hv hlen h, MakeMask_append, MakeMask_append,
          ih w' hw', hmask]
      · rw [substituteAll_nomatch v c w h, MakeMask_cons, MakeMask_cons,
          ih w (by simpa using hw)]

/-- C21: for every ASCII subject `w` and every non-empty ASCII token `v` that
contains no `?` and whose first character is none of `l`, `d`, `s`,
`ReplaceWord` on `w` and its own mask returns, and a non-empty result has the
mask of `w`, hence its class pattern, and the length of `w`. -/
theorem ReplaceWord_keeps_mask (w v : Str) (hw : isASCII w = true) (hva : isASCII v = true)
    (hv : v ≠ []) (hq : chr '?' ∉ v) (hl : v.head? ≠ some (chr 'l'))
    (hd : v.head? ≠ some (chr 'd')) (hs : v.head? ≠ some (chr 's')) :
    ∃ r, ReplaceWord w (MakeMask w) v = some r ∧
      (r ≠ [] → MakeMask r = MakeMask w ∧ r.length = w.length) := by
  cases hocc : Contains (MakeMask w) (MakeMask v)
  · refine ⟨[], ?_, fun h => absurd rfl h⟩
    rw [ReplaceWord_unfold, hocc]
    rfl
  · refine ⟨_, ReplaceWord_of_nice w v hw hva hv hq hl hd hs hocc, ?_⟩
    split_ifs
    · intro _
      exact ⟨MakeMask_substituteAll v hv w.length w (le_refl _),
        substituteAll_length v hv w.length w (le_refl _)⟩
    · intro h
      exact absurd rfl h

set_option maxRecDepth 100000 in
/-- C21 at subject `Hello Jello` and token `World`: the result is `World World`,
with the mask of the subject. -/
theorem ReplaceWord_keeps_mask_witness :
    (∃ r, ReplaceWord (ascii "Hello Jello") (MakeMask (ascii "Hello Jello")) (ascii "World")
      = some r ∧
      (r ≠ [] → MakeMask r = MakeMask (ascii "Hello Jello") ∧
        r.length = (ascii "Hello Jello").length)) ∧
    ReplaceWord (ascii "Hello Jello") (MakeMask (ascii "Hello Jello")) (ascii "World")
      = some (ascii "World World") :=
  ⟨ReplaceWord_keeps_mask (ascii "Hello Jello") (ascii "World") (by decide) (by decide)
    (by decide) (by decide) (by decide) (by decide) (by decide), by decide⟩

/-! ## ReplaceWord: every occurrence is replaced -/

theorem countScan_skip (sub : Str) (k : Nat) (s : Str) :
    countScan sub k s = countScan sub 0 (s.drop k) := by
  induction k generalizing s with
  | zero => rfl
  | succ k ih =>
    cases s with
    | nil => rfl
    | cons c s => rw [countScan, ih, List.drop_succ_cons]

theorem countScan_match (sub t : Str) (h : sub ≠ []) :
    countScan sub 0 (sub ++ t) = 1 + countScan sub 0 t := by
  cases sub with
  | nil => exact absurd rfl h
  | cons c sub =>
    have hp : HasPrefix (c :: (sub ++ t)) (c :: sub) = true := HasPrefix_append (c :: sub) t
    rw [List.cons_append, countScan, if_pos hp, countScan_skip]
    simp

theorem countScan_nomatch (sub : Str) (c : Nat) (s : Str)
    (h : HasPrefix (c :: s) sub = false) :
    countScan sub 0 (c :: s) = countScan sub 0 s := by
  rw [countScan, if_neg (by simp [h])]

theorem Contains_of_countScan (sub : Str) (s : Str) (h : 0 < countScan sub 0 s) :
    Contains s sub = true := by
  induction s with
  | nil => simp [countScan] at h
  | cons c s ih =>
    cases hp : HasPrefix (c :: s) sub
    · rw [countScan_nomatch _ _ _ hp] at h
      exact Contains_cons_of_Contains c s sub (ih h)
    · exact Contains_of_HasPrefix _ _ hp

/-- The occurrences that `strings.Count` finds of the mask of the token in the
mask of the subject are the replaced occurrences of the cut. -/
theorem countScan_MakeMask (v : Str) (hv : v ≠ []) :
    ∀ (n : Nat) (w : Str), w.length ≤ n →
      countScan (MakeMask v) 0 (MakeMask w) = tokenPieces (pieces v 0 w) := by
  have hmv : MakeMask v ≠ [] := fun h => hv (MakeMask_eq_nil h)
  intro n
  induction n with
  | zero =>
    intro w hw
    have : w = [] := List.length_eq_zero.1 (Nat.le_zero.1 hw)
    subst this
    rfl
  | succ n ih =>
    intro w hw
    cases w with
    | nil => rfl
    | cons c w =>
      rcases subject_cases v c w with ⟨h, a, w', hsplit, hlen, hmask⟩ | h
      · have hw' : w'.length ≤ n := by
          have := congrArg List.length hsplit
          have hvpos : 0 < v.length := List.length_pos.2 hv
          simp at this hw
          omega
        rw [hsplit] at h ⊢
        rw [pieces_match v a w' hv hlen h, MakeMask_append, hmask,
          countScan_match _ _ hmv, ih w' hw', tokenPieces, Nat.add_comm]
      · rw [pieces_nomatch v c w h, tokenPieces, ← ih w (by simpa using hw)]
        rw [MakeMask_cons] at h ⊢
        rw [maskUnit_eq] at h ⊢
        cases hc : isClass c
        · simp only [hc, Bool.false_eq_true, if_false, List.cons_append, List.nil_append] at h ⊢
          exact countScan_nomatch _ _ _ h
        · simp only [hc, if_true, List.cons_append, List.nil_append] at h ⊢
          rw [countScan_nomatch _ _ _ h,
            countScan_nomatch _ _ _ (HasPrefix_classLetter_MakeMask c _ v hv)]

theorem Count_MakeMask (v : Str) (hv : v ≠ []) (w : Str) :
    Count (MakeMask w) (MakeMask v) = tokenPieces (pieces v 0 w) := by
  have hmv : MakeMask v ≠ [] := fun h => hv (MakeMask_eq_nil h)
  rw [Count, if_neg hmv]
  exact countScan_MakeMask v hv w.length w (Nat.le_refl _)

theorem Count_self (v : Str) (hv : v ≠ []) : Count (MakeMask v) (MakeMask v) = 1 := by
  have hmv : MakeMask v ≠ [] := fun h => hv (MakeMask_eq_nil h)
  rw [Count, if_neg hmv]
  have := countScan_match (MakeMask v) [] hmv
  rw [List.append_nil] at this
  rw [this]
  rfl

/-- The substitution writes out the cut. -/
theorem substituteAll_eq_writeOut (v : Str) (hv : v ≠ []) :
    ∀ (n : Nat) (w : Str), w.length ≤ n →
      substituteAll v 0 w = writeOut v (pieces v 0 w) := by
  intro n
  induction n with
  | zero =>
    intro w hw
    have : w = [] := List.length_eq_zero.1 (Nat.le_zero.1 hw)
    subst this
    rfl
  | succ n ih =>
    intro w hw
    cases w with
    | nil => rfl
    | cons c w =>
      rcases subject_cases v c w with ⟨h, a, w', hsplit, hlen, _⟩ | h
      · have hw' : w'.length ≤ n := by
          have := congrArg List.length hsplit
          have hvpos : 0 < v.length := List.length_pos.2 hv
          simp at this hw
          omega
        rw [hsplit] at h ⊢
        rw [pieces_match v a w' hv hlen h, substituteAll_match v a w' hv hlen h, ih w' hw',
          writeOut]
      · rw [pieces_nomatch v c w h, substituteAll_nomatch v c w h, ih w (by simpa using hw),
          writeOut]

/-- C4, amended: `ReplaceWord` takes no maximum. On an ASCII subject whose mask
holds the mask of the token two or more times, for a non-empty ASCII token
without `?` whose first character is none of `l`, `d`, `s`, it returns the
subject with the token written over every occurrence of the class pattern of the
token, found left to right without overlap, and with every other character kept:
the replaced occurrences are as many as `strings.Count` finds of the mask of the
token in the mask of the subject, so at least two. -/
theorem ReplaceWord_replaces_all (w v : Str) (hw : isASCII w = true)
    (hva : isASCII v = true) (hv : v ≠ []) (hq : chr '?' ∉ v)
    (hl : v.head? ≠ some (chr 'l')) (hd : v.head? ≠ some (chr 'd'))
    (hs : v.head? ≠ some (chr 's'))
    (h2 : 2 ≤ Count (MakeMask w) (MakeMask v)) :
    ReplaceWord w (MakeMask w) v = some (writeOut v (pieces v 0 w)) ∧
    tokenPieces (pieces v 0 w) = Count (MakeMask w) (MakeMask v) ∧
    2 ≤ tokenPieces (pieces v 0 w) := by
  have hmv : MakeMask v ≠ [] := fun h => hv (MakeMask_eq_nil h)
  have hcount := Count_MakeMask v hv w
  have hocc : Contains (MakeMask w) (MakeMask v) = true := by
    apply Contains_of_countScan
    rw [Count, if_neg hmv] at h2
    omega
  have hne : MakeMask w ≠ MakeMask v := by
    intro h
    rw [h, Count_self v hv] at h2
    omega
  refine ⟨?_, hcount.symm, by omega⟩
  rw [ReplaceWord_eq_substituteAll w v hw hva hv hq hl hd hs hocc hne,
    substituteAll_eq_writeOut v hv w.length w (Nat.le_refl _)]

set_option maxRecDepth 100000 in
/-- C4, amended, at subject `Hello Jello` and token `Hello`: the mask of the
subject holds the mask of the token twice, the cut is an occurrence, the blank,
an occurrence, and the result is `Hello Hello`. -/
theorem ReplaceWord_replaces_all_witness :
    2 ≤ Count (MakeMask (ascii "Hello Jello")) (MakeMask (ascii "Hello")) ∧
    pieces (ascii "Hello") 0 (ascii "Hello Jello") = [.token, .keep (chr ' '), .token] ∧
    writeOut (ascii "Hello") (pieces (ascii "Hello") 0 (ascii "Hello Jello"))
      = ascii "Hello Hello" ∧
    (ReplaceWord (ascii "Hello Jello") (MakeMask (ascii "Hello Jello")) (ascii "Hello")
        = some (writeOut (ascii "Hello") (pieces (ascii "Hello") 0 (ascii "Hello Jello"))) ∧
      tokenPieces (pieces (ascii "Hello") 0 (ascii "Hello Jello"))
        = Count (MakeMask (ascii "Hello Jello")) (MakeMask (ascii "Hello")) ∧
      2 ≤ tokenPieces (pieces (ascii "Hello") 0 (ascii "Hello Jello"))) :=
  ⟨by decide, by rfl, by decide,
    ReplaceWord_replaces_all (ascii "Hello Jello") (ascii "Hello") (by decide) (by decide)
      (by decide) (by decide) (by decide) (by decide) (by decide) (by decide)⟩

end Maskcat
